import Mathlib

/-!
Verification of the routing and request-dispatch core of the arcanajs server
(`src/modules/router/radix-tree.ts`, `src/modules/router/layer.ts`,
`src/modules/router/router.ts`) against its natural-language specification.

The TypeScript code is shallowly embedded: JS strings are Lean `String`s
(manipulated through their character lists), JS objects and `Map`s are
association lists with JS insert/overwrite semantics, `RegExp` constraint
objects are embedded as their `test` functions `String → Bool`, and the
recursive search / regex matchers take an explicit fuel argument that is
always instantiated with a provably sufficient bound (the source recursions
terminate structurally; `_search` in particular increments its segment index
on every recursive call, so `segments.length + 1` fuel is exact).
-/

namespace Arcana

/-- HTTP methods of `src/types/index.ts`, plus the sentinel `USE` used for
middleware ("any verb"). -/
inductive Method where
  | GET | POST | PUT | DELETE | PATCH | HEAD | OPTIONS | USE
deriving DecidableEq

/-! ### JS objects and Maps as association lists -/

/-- `Map.get` / property read: first (unique) binding of the key. -/
def mget {κ α : Type} [DecidableEq κ] (l : List (κ × α)) (k : κ) : Option α :=
  (l.find? (fun p => p.1 = k)).map (fun p => p.2)

/-- `Map.set` / `{...obj, [k]: v}`: overwrite in place if the key exists
(keeping its position, as JS objects and Maps do), else append. -/
def mset {κ α : Type} [DecidableEq κ] (l : List (κ × α)) (k : κ) (v : α) :
    List (κ × α) :=
  if l.any (fun p => p.1 = k) then
    l.map (fun p => if p.1 = k then (k, v) else p)
  else l ++ [(k, v)]

/-- Request parameter map (`Record<string, string>`). -/
abbrev Params := List (String × String)

/-- Object spread `{...a, ...b}`. -/
def objMerge (a b : Params) : Params :=
  b.foldl (fun acc kv => mset acc kv.1 kv.2) a

/-! ### Character-level string helpers (JS strings as char sequences) -/

/-- JS `\w` character class (ASCII word characters). -/
def isWordChar (c : Char) : Bool :=
  (('a' ≤ c && c ≤ 'z') || ('A' ≤ c && c ≤ 'Z') || ('0' ≤ c && c ≤ '9')
    || c = '_')

/-- `String.prototype.split("/")`, producing the raw pieces (including empty
ones) between separators. -/
def splitSepsAux : List Char → List Char → List (List Char)
  | [], cur => [cur.reverse]
  | '/' :: rest, cur => cur.reverse :: splitSepsAux rest []
  | c :: rest, cur => splitSepsAux rest (c :: cur)

/-- `path.split("/").filter(Boolean)` from `RadixTree.find` /
`RadixTree._parsePath`: split on the separator and drop empty segments. -/
def splitSlash (path : String) : List String :=
  ((splitSepsAux path.toList []).filter (fun cs => cs ≠ [])).map
    (fun cs => String.mk cs)

/-- `segments.slice(index).join("/")` (the joining part). -/
def joinSlash (l : List String) : String :=
  String.mk (List.intercalate ['/'] (l.map String.toList))

/-- JS `a.startsWith(b)`. -/
def strStartsWith (s t : String) : Bool :=
  s.toList.take t.toList.length = t.toList

/-- JS `s.slice(n)` / `s.substring(n)` on code units. -/
def strDrop (s : String) (n : Nat) : String := String.mk (s.toList.drop n)

/-- JS `s.slice(0, n)`. -/
def strTake (s : String) (n : Nat) : String := String.mk (s.toList.take n)

/-- JS string length. -/
def strLen (s : String) : Nat := s.toList.length

/-- JS `s.endsWith("/")` (only ever used with the one-character suffix). -/
def endsWithSlash (s : String) : Bool := s.toList.getLast? = some '/'

/-- `RadixTree._commonPrefixLength`. -/
def commonPrefixLen : List Char → List Char → Nat
  | x :: xs, y :: ys => if x = y then commonPrefixLen xs ys + 1 else 0
  | _, _ => 0

/-- `_commonPrefixLength` on strings. -/
def commonLen (a b : String) : Nat := commonPrefixLen a.toList b.toList

/-! ### Radix tree data model (`radix-tree.ts`) -/

/-- `NodeType`. -/
inductive NodeType where
  | STATIC | PARAM | CATCH_ALL
deriving DecidableEq

/-- `ParamConstraint`: the `RegExp` field is embedded as its `test` function,
the validator as itself. -/
structure ParamConstraint where
  pattern : Option (String → Bool)
  validator : Option (String → Bool)

/-- `RouteDefinition` (parametric in the handler type `H`). `RadixTree.add`
normalizes a bare `RegExp` constraint into `{ pattern }`; the embedding takes
the already-normalized constraint list. -/
structure RouteDefinition (H : Type) where
  method : Method
  path : String
  handlers : List H
  constraints : List (String × ParamConstraint)
  paramNames : List String

/-- `RadixNode`: path fragment, node type, optional parameter name, static
children keyed by first character (a `Map`, modeled as an ordered
association list), routes keyed by method, priority counter, and the
wildcard/param child slots. -/
inductive RadixNode (H : Type) where
  | mk (path : String) (ty : NodeType) (paramName : Option String)
      (children : List (String × RadixNode H))
      (routes : List (Method × RouteDefinition H))
      (priority : Nat)
      (wildcardChild : Option (RadixNode H))
      (paramChild : Option (RadixNode H))

def RadixNode.path {H : Type} : RadixNode H → String
  | .mk p _ _ _ _ _ _ _ => p

def RadixNode.ty {H : Type} : RadixNode H → NodeType
  | .mk _ t _ _ _ _ _ _ => t

def RadixNode.paramName {H : Type} : RadixNode H → Option String
  | .mk _ _ pn _ _ _ _ _ => pn

def RadixNode.children {H : Type} : RadixNode H → List (String × RadixNode H)
  | .mk _ _ _ ch _ _ _ _ => ch

def RadixNode.routes {H : Type} : RadixNode H → List (Method × RouteDefinition H)
  | .mk _ _ _ _ rts _ _ _ => rts

def RadixNode.priority {H : Type} : RadixNode H → Nat
  | .mk _ _ _ _ _ pr _ _ => pr

def RadixNode.wildcardChild {H : Type} : RadixNode H → Option (RadixNode H)
  | .mk _ _ _ _ _ _ wc _ => wc

def RadixNode.paramChild {H : Type} : RadixNode H → Option (RadixNode H)
  | .mk _ _ _ _ _ _ _ pc => pc

/-- `createNode(path, type)`. -/
def createNode {H : Type} (path : String) (ty : NodeType) : RadixNode H :=
  .mk path ty none [] [] 0 none none

/-- One parsed pattern segment, as produced by `RadixTree._parsePath`. -/
structure Seg where
  path : String
  ty : NodeType
  paramName : Option String

/-- Embeds the regex `/^:(\w+)(?:<(.+)>)?(\?)?$/` from `_parsePath`: returns
the captured parameter name when the whole segment is a well-formed param
segment (name of word characters, optional nonempty `<...>` constraint text
that is discarded, optional trailing `?` that is also discarded). -/
def paramSegName (seg : String) : Option String :=
  if strStartsWith seg ":" then
    let cs := seg.toList.drop 1
    let name := cs.takeWhile isWordChar
    let rest := cs.dropWhile isWordChar
    if name = [] then none
    else if rest = [] then some (String.mk name)
    else if rest = ['?'] then some (String.mk name)
    else
      match rest with
      | '<' :: tl =>
          if 2 ≤ tl.length && tl.getLast? = some '>' then some (String.mk name)
          else if 3 ≤ tl.length && tl.getLast? = some '?'
              && tl.dropLast.getLast? = some '>' then some (String.mk name)
          else none
      | _ => none
  else none

/-- Segment classification from `RadixTree._parsePath`: `:name`-segments that
match the param regex become `PARAM`; `*`-segments become `CATCH_ALL` with
name `wildcard` (bare `*`) or the text after `*`; everything else (including
malformed `:`-segments) is `STATIC`. -/
def classifySeg (segment : String) : Seg :=
  if strStartsWith segment ":" then
    match paramSegName segment with
    | some name => ⟨segment, .PARAM, some name⟩
    | none => ⟨segment, .STATIC, none⟩
  else if strStartsWith segment "*" then
    let name := if 1 < strLen segment then strDrop segment 1 else "wildcard"
    ⟨segment, .CATCH_ALL, some name⟩
  else ⟨segment, .STATIC, none⟩

/-- `_parsePath`: split, drop empty segments, classify each. -/
def parsePath (path : String) : List Seg :=
  (splitSlash path).map classifySeg

/-- The `paramNames` array collected by `_parsePath` (params and catch-alls,
left to right). -/
def pathParamNames (path : String) : List String :=
  (parsePath path).filterMap (fun s =>
    match s.ty with
    | .STATIC => none
    | _ => s.paramName)

/-- `routes.set(method, route); priority++` at the end of `add`. -/
def recordRoute {H : Type} (node : RadixNode H) (route : RouteDefinition H) :
    RadixNode H :=
  .mk node.path node.ty node.paramName node.children
    (mset node.routes route.method route) (node.priority + 1)
    node.wildcardChild node.paramChild

/-- The node-splitting step of `_insert`: the existing child keeps the common
prefix of its text (losing its routes and children to a demoted copy that
carries the remainder of the text). -/
def splitNode {H : Type} (child : RadixNode H) (cl : Nat) : RadixNode H :=
  let splitChild : RadixNode H :=
    .mk (strDrop child.path cl) child.ty none child.children child.routes
      child.priority child.wildcardChild child.paramChild
  .mk (strTake child.path cl) child.ty child.paramName
    [(strTake (strDrop child.path cl) 1, splitChild)] [] child.priority
    none none

/-- The walk of `RadixTree.add`: apply `_insert` for each parsed segment in
turn and record the route at the final node. Written as one recursion that
rebuilds the tree along the descent (the source mutates nodes in place and
descends into the returned child). -/
def addSegs {H : Type} (node : RadixNode H) (segs : List Seg)
    (route : RouteDefinition H) : RadixNode H :=
  match segs with
  | [] => recordRoute node route
  | seg :: rest =>
    match seg.ty with
    | .PARAM =>
      let pc :=
        match node.paramChild with
        | some c => c
        | none =>
          .mk seg.path .PARAM seg.paramName [] [] 0 none none
      .mk node.path node.ty node.paramName node.children node.routes
        node.priority node.wildcardChild (some (addSegs pc rest route))
    | .CATCH_ALL =>
      let wc :=
        match node.wildcardChild with
        | some c => c
        | none =>
          .mk seg.path .CATCH_ALL seg.paramName [] [] 0 none none
      .mk node.path node.ty node.paramName node.children node.routes
        node.priority (some (addSegs wc rest route)) node.paramChild
    | .STATIC =>
      let key := strTake seg.path 1
      match mget node.children key with
      | none =>
        let leaf : RadixNode H := createNode seg.path .STATIC
        .mk node.path node.ty node.paramName
          (mset node.children key (addSegs leaf rest route)) node.routes
          node.priority node.wildcardChild node.paramChild
      | some child =>
        let cl := commonLen child.path seg.path
        let child1 := if cl < strLen child.path then splitNode child cl else child
        if cl < strLen seg.path then
          let remainingPath := strDrop seg.path cl
          let rKey := strTake remainingPath 1
          let rChild :=
            match mget child1.children rKey with
            | some rc => rc
            | none => createNode remainingPath .STATIC
          let child2 : RadixNode H :=
            .mk child1.path child1.ty child1.paramName
              (mset child1.children rKey (addSegs rChild rest route))
              child1.routes child1.priority child1.wildcardChild
              child1.paramChild
          .mk node.path node.ty node.paramName
            (mset node.children key child2) node.routes node.priority
            node.wildcardChild node.paramChild
        else
          .mk node.path node.ty node.paramName
            (mset node.children key (addSegs child1 rest route)) node.routes
            node.priority node.wildcardChild node.paramChild

/-- `RadixTree`: root node plus route counter. -/
structure RadixTree (H : Type) where
  root : RadixNode H
  routeCount : Nat

/-- `new RadixTree()`. -/
def emptyTree {H : Type} : RadixTree H := ⟨createNode "" .STATIC, 0⟩

/-- `RadixTree.add(method, path, handlers, constraints)`. The registration
never raises: there is no `throw` anywhere in `radix-tree.ts`, so the
embedding is a total function. -/
def treeAdd {H : Type} (t : RadixTree H) (method : Method) (path : String)
    (handlers : List H) (constraints : List (String × ParamConstraint)) :
    RadixTree H :=
  let segs := parsePath path
  let route : RouteDefinition H :=
    ⟨method, path, handlers, constraints, pathParamNames path⟩
  ⟨addSegs t.root segs route, t.routeCount + 1⟩

/-- The constraint-validation loop in the base case of `_search`: some
declared constraint whose parameter is bound fails its pattern test or its
validator. -/
def constraintsFail (cs : List (String × ParamConstraint)) (params : Params) :
    Bool :=
  cs.any (fun pc =>
    match mget params pc.1 with
    | some value =>
      (match pc.2.pattern with
       | some p => !p value
       | none => false) ||
      (match pc.2.validator with
       | some v => !v value
       | none => false)
    | none => false)

/-- `RadixTree._search`. The fuel argument is a recursion bound only: the
source recursion increments `index` on every recursive call, so any fuel
`≥ segments.length - index + 1` computes the exact source result (the
top-level entry point passes exactly that). Branch order is that of the
source: literal static children first (full-segment equality, first match in
`Map` iteration order), then the param child, then the wildcard child, which
is terminal. -/
def searchF {H : Type} :
    Nat → RadixNode H → Method → List String → Nat → Params →
      Option (RadixNode H × Params)
  | 0, _, _, _, _, _ => none
  | fuel + 1, node, method, segments, index, params =>
    if index = segments.length then
      if (mget node.routes method).isSome || (mget node.routes .USE).isSome then
        match (mget node.routes method).orElse (fun _ => mget node.routes .USE) with
        | some route =>
          if constraintsFail route.constraints params then none
          else some (node, params)
        | none => none
      else none
    else
      let segment := segments.getD index ""
      let staticRes := node.children.foldl (fun acc kc =>
        match acc with
        | some r => some r
        | none =>
          if kc.2.path = segment then
            searchF fuel kc.2 method segments (index + 1) params
          else none) none
      match staticRes with
      | some r => some r
      | none =>
        let paramRes :=
          match node.paramChild with
          | some pc =>
            searchF fuel pc method segments (index + 1)
              (mset params ((pc.paramName).getD "") segment)
          | none => none
        match paramRes with
        | some r => some r
        | none =>
          match node.wildcardChild with
          | some wc =>
            if (mget wc.routes method).isSome || (mget wc.routes .USE).isSome then
              some (wc, mset params ((wc.paramName).getD "")
                (joinSlash (segments.drop index)))
            else none
          | none => none

/-- `RadixTree.find(method, path)`: split the path, search, then read the
matched node's route for the method (falling back to `USE`). -/
def treeFind {H : Type} (t : RadixTree H) (method : Method) (path : String) :
    Option (RouteDefinition H × Params) :=
  let segments := splitSlash path
  match searchF (segments.length + 1) t.root method segments 0 [] with
  | some np =>
    match (mget np.1.routes method).orElse (fun _ => mget np.1.routes .USE) with
    | some route => some (route, np.2)
    | none => none
  | none => none

/-- Observable projection of a `find` result: matched route's registered
pattern, its handlers, and the extracted parameters (route identity up to
the fields that admit decidable equality). -/
def found {H : Type} (o : Option (RouteDefinition H × Params)) :
    Option (String × List H × Params) :=
  o.map (fun rm => (rm.1.path, rm.1.handlers, rm.2))

/-! ### Layer pattern compilation (`layer.ts`)

The `Layer` constructor compiles its path into a regular expression
(`:param` and `:param?` become named `[^\/]+` groups, `**` becomes
`(?<catchAll>.*)`, `*` becomes `(?<wildcard>[^\/]+)`, a `(?:\/.*)?` tail is
appended for `USE` paths not ending in `/`, anchored `^...$` — the `$` is
dropped when the path is `*` — with the case-insensitive `i` flag). The
embedding compiles the same pattern to a token list and runs a greedy
backtracking matcher over it. Inline `<regex>` parameter constraints are not
modeled (none of the verified properties registers one). -/

inductive LToken where
  | lit (c : Char)
  | param (name : String) (opt : Bool)
  | wildcard
  | catchAll
  | useTail
deriving DecidableEq

/-- Token compilation of a layer path (the chain of `replace` calls in the
`Layer` constructor). The fuel is a recursion bound; each step consumes at
least one character, so `length + 1` computes the full token list. The
catch-all clause compiles a character to a literal token; since the source
escapes only `/`, this is faithful only for characters satisfying
`regexLiteralChar` (plus the escaped `/`), and theorems about layer
matching restrict their layer paths accordingly. -/
def tokenizeF : Nat → List Char → List LToken
  | 0, _ => []
  | _, [] => []
  | fuel + 1, ':' :: rest =>
    let name := rest.takeWhile isWordChar
    let rest2 := rest.dropWhile isWordChar
    if name = [] then .lit ':' :: tokenizeF fuel rest
    else
      match rest2 with
      | '?' :: rest3 => .param (String.mk name) true :: tokenizeF fuel rest3
      | _ => .param (String.mk name) false :: tokenizeF fuel rest2
  | fuel + 1, '*' :: '*' :: rest => .catchAll :: tokenizeF fuel rest
  | fuel + 1, '*' :: rest => .wildcard :: tokenizeF fuel rest
  | fuel + 1, c :: rest => .lit c :: tokenizeF fuel rest

/-- Try group lengths `k, k-1, ..., 1` (greedy matching of a one-or-more
group, longest first). -/
def tryLens {α : Type} (f : Nat → Option α) : Nat → Option α
  | 0 => none
  | k + 1 =>
    match f (k + 1) with
    | some r => some r
    | none => tryLens f k

/-- Try group lengths `k, ..., 1, 0` (greedy matching of a zero-or-more
group). -/
def tryLens0 {α : Type} (f : Nat → Option α) (k : Nat) : Option α :=
  match tryLens f k with
  | some r => some r
  | none => f 0

/-- Matcher for the compiled layer regex: anchored at the start; `anch`
records whether the `$` end anchor is present. Literals compare under
`toLower` (the `i` flag); named groups capture the original text. Returns
the named-group bindings of `exec` (in group order, unmatched optional
groups omitted) or `none` when the regex does not match. Fuel bound:
every step consumes a token or a character, so `tokens + chars + 1`
suffices. -/
def matchToks : Nat → Bool → List LToken → List Char → Option Params
  | 0, _, _, _ => none
  | _ + 1, anch, [], cs => if cs = [] || !anch then some [] else none
  | _ + 1, _, .lit _ :: _, [] => none
  | fuel + 1, anch, .lit c :: ts, x :: xs =>
    if c.toLower = x.toLower then matchToks fuel anch ts xs else none
  | fuel + 1, anch, .param name opt :: ts, cs =>
    let run := (cs.takeWhile (fun c => c ≠ '/')).length
    let withGroup := tryLens (fun k =>
      match matchToks fuel anch ts (cs.drop k) with
      | some ps => some ((name, String.mk (cs.take k)) :: ps)
      | none => none) run
    match withGroup with
    | some ps => some ps
    | none => if opt then matchToks fuel anch ts cs else none
  | fuel + 1, anch, .wildcard :: ts, cs =>
    let run := (cs.takeWhile (fun c => c ≠ '/')).length
    tryLens (fun k =>
      match matchToks fuel anch ts (cs.drop k) with
      | some ps => some (("wildcard", String.mk (cs.take k)) :: ps)
      | none => none) run
  | fuel + 1, anch, .catchAll :: ts, cs =>
    tryLens0 (fun k =>
      match matchToks fuel anch ts (cs.drop k) with
      | some ps => some (("catchAll", String.mk (cs.take k)) :: ps)
      | none => none) cs.length
  | fuel + 1, anch, .useTail :: ts, cs =>
    let consumed :=
      match cs with
      | '/' :: xs => tryLens0 (fun k => matchToks fuel anch ts (xs.drop k)) xs.length
      | _ => none
    match consumed with
    | some ps => some ps
    | none => matchToks fuel anch ts cs

/-- Handler behaviors for the environment model of dispatch: a handler body
either calls its continuation once (with or without an error), throws,
completes without calling the continuation (it produced the response), or
calls the continuation and then throws. -/
inductive HBeh (E : Type) where
  | callNext (err : Option E)
  | throwErr (e : E)
  | finish
  | nextThenThrow (err : Option E) (e : E)
deriving DecidableEq

/-- Model `Layer`: verb, registered path, declared handler arity (the JS
`handler.length` used to discriminate 3- vs 4-argument handlers), and the
handler's behavior. The `Layer` constructor in `layer.ts` takes only
`(path, method, handler)`; the `constraints` argument that `router.ts`
passes is dropped, so a layer's `constraints` field is never assigned and
the constraint branch of the fallback scan (router.ts:336-341) is
unreachable — the model therefore has no constraints field. -/
structure MLayer (E : Type) where
  method : Method
  path : String
  arity : Nat
  beh : HBeh E
deriving DecidableEq

/-- `this.fast_slash = path === "*" || path === "/"`. -/
def fastSlash {E : Type} (l : MLayer E) : Bool := l.path = "*" || l.path = "/"

/-- The compiled tokens of a layer (constructor of `layer.ts`), including the
`(?:\/.*)?` tail for `USE` layers whose path does not end in `/`. -/
def layerTokens (method : Method) (path : String) : List LToken :=
  tokenizeF (strLen path + 1) path.toList ++
    (if method = .USE && !endsWithSlash path && path ≠ "*" then [.useTail]
     else [])

/-- `this.regexp.test(path)`. -/
def layerRegexTest {E : Type} (l : MLayer E) (q : String) : Bool :=
  let toks := layerTokens l.method l.path
  (matchToks (toks.length + q.toList.length + 1) (l.path ≠ "*") toks
    q.toList).isSome

/-- `Layer.match`. -/
def layerMatch {E : Type} (l : MLayer E) (path : String) : Bool :=
  if l.path = "*" then true
  else if l.method = .USE && strStartsWith path l.path then true
  else if fastSlash l && path = "/" then true
  else layerRegexTest l path

/-- `Layer.params`: the named-group bindings of `exec`, `{}` when the regex
does not match. -/
def layerParams {E : Type} (l : MLayer E) (path : String) : Params :=
  let toks := layerTokens l.method l.path
  match matchToks (toks.length + path.toList.length + 1) (l.path ≠ "*") toks
      path.toList with
  | some ps => ps
  | none => []

/-! ### The fallback dispatch loop (`Router.handle`, lines 314-377) -/

/-- Dispatch trace events: a handler invocation (recording the error argument
it received and the request path/baseUrl it observed) or an invocation of
the boundary callback `out`. -/
inductive DEvent (E : Type) where
  | handlerCall (idx : Nat) (err : Option E) (path : String) (baseUrl : String)
  | outCall (err : Option E)
deriving DecidableEq

/-- Request-scoped dispatch state: the shared mutable layer index `idx`, the
mutable `req.path` / `req.baseUrl` / `req.params`, and the observation
trace. -/
structure DState (E : Type) where
  idx : Nat
  path : String
  baseUrl : String
  params : Params
  trace : List (DEvent E)
deriving DecidableEq

/-- JS `str || "/"`. -/
def orSlash (s : String) : String := if s = "" then "/" else s

/-- Append one observation to the trace. -/
def pushEvent {E : Type} (ev : DEvent E) (st : DState E) : DState E :=
  { st with trace := st.trace ++ [ev] }

/-- The `USE`-prefix stripping of `Router.handle` (both branches): when the
matched layer is `USE` and its registered path is neither `/` nor empty,
remove that path from the front of `req.path` (empty remainder becomes `/`)
and append it to `req.baseUrl`. -/
def stripState {E : Type} (layer : MLayer E) (st1 : DState E) : DState E :=
  let removed := if layer.method = .USE then layer.path else ""
  if removed ≠ "/" ∧ removed ≠ "" then
    { st1 with baseUrl := st1.baseUrl ++ removed,
               path := orSlash (strDrop st1.path (strLen removed)) }
  else st1

/-- `req.params = { ...req.params, ...layer.params(path) }` (with `path` the
pre-strip path, as in the source). -/
def mergeParams {E : Type} (layer : MLayer E) (origPath : String)
    (st2 : DState E) : DState E :=
  { st2 with params := objMerge st2.params (layerParams layer origPath) }

/-- The `finally` restoration of `req.path` / `req.baseUrl`. -/
def restoreState {E : Type} (origPath origBase : String) (s : DState E) :
    DState E :=
  { s with path := origPath, baseUrl := origBase }

/-- Run a handler body and then the `finally` restoration: `callNext`
continues via the continuation `step`; `throwErr` is caught and forwarded
as `step (some t)`; `finish` returns without calling the continuation;
`nextThenThrow` calls the continuation, then throws, the throw being caught
and forwarded from the state the first continuation produced. -/
def runBeh {E : Type} (step : Option E → DState E → DState E) (beh : HBeh E)
    (st : DState E) (restore : DState E → DState E) : DState E :=
  match beh with
  | .callNext e2 => restore (step e2 st)
  | .throwErr t => restore (step (some t) st)
  | .finish => restore st
  | .nextThenThrow e2 t => restore (step (some t) (step e2 st))

/-- The `next` closure of the fallback branch of `Router.handle`: exhaustion
calls `out(err)`; a non-matching layer (path or verb) is skipped; a matching
`USE` layer has its registered path stripped from `req.path` (accumulated
onto `req.baseUrl`) unless it is `/` or empty; parameters extracted from the
original path are merged; then, in error mode, a 4-arity handler is invoked
with the error while any other handler is skipped by `next(err)`, and in
normal mode a `< 4`-arity handler is invoked while others are skipped by
`next()`; a throw is caught and forwarded to `next(e)`, and the `finally`
block restores `req.path` / `req.baseUrl` on every exit. Fuel is a recursion
bound: every nested call strictly increases `idx`, so `stack.length + 1`
computes the source behavior. -/
def nextRun {E : Type} :
    Nat → List (MLayer E) → Method → Option E → DState E → DState E
  | 0, _, _, _, st => st
  | fuel + 1, stack, m, err, st =>
    match stack.get? st.idx with
    | none => pushEvent (.outCall err) st
    | some layer =>
      let st1 := { st with idx := st.idx + 1 }
      let path := st.path
      if ¬ layerMatch layer path then nextRun fuel stack m err st1
      else if layer.method ≠ .USE ∧ layer.method ≠ m then
        nextRun fuel stack m err st1
      else
        let st3 := mergeParams layer path (stripState layer st1)
        let restore := restoreState path st.baseUrl
        match err with
        | some e =>
          if layer.arity = 4 then
            runBeh (nextRun fuel stack m) layer.beh
              (pushEvent (.handlerCall st.idx (some e) st3.path st3.baseUrl)
                st3) restore
          else restore (nextRun fuel stack m (some e) st3)
        | none =>
          if layer.arity < 4 then
            runBeh (nextRun fuel stack m) layer.beh
              (pushEvent (.handlerCall st.idx none st3.path st3.baseUrl) st3)
              restore
          else restore (nextRun fuel stack m none st3)

/-- The fallback branch of `Router.handle`: run the `next` loop from index 0
on a fresh request state. -/
def handleFallback {E : Type} (stack : List (MLayer E)) (m : Method)
    (path : String) : DState E :=
  nextRun (stack.length + 1) stack m none ⟨0, path, "", [], []⟩

/-! ### The radix-tree fast path of `Router.handle` (lines 244-311) -/

/-- Trace events of the radix fast path: a `USE`-middleware invocation, a
matched route-handler invocation, or an invocation of the boundary
callback. (A 4-arity middleware is invoked with `null` as its error
argument in this branch, so the recorded error argument is always `none`.) -/
inductive RaEvent (E : Type) where
  | mwCall (idx : Nat) (path : String) (baseUrl : String)
  | routeCall (idx : Nat)
  | outCall (err : Option E)
deriving DecidableEq

/-- State of the radix fast path: separate middleware and route-handler
indices, the mutable request fields, and the trace. -/
structure RState (E : Type) where
  mwIdx : Nat
  routeIdx : Nat
  path : String
  baseUrl : String
  params : Params
  trace : List (RaEvent E)
deriving DecidableEq

/-- `executeRouteHandlers`: an error argument goes straight to `out(err)`;
exhaustion of the matched route's handler list calls `out()`; otherwise the
next handler runs with `executeRouteHandlers` as continuation, a throw
being caught and sent to `out(e)`. -/
def execRoute {E : Type} :
    Nat → List (HBeh E) → Option E → RState E → RState E
  | 0, _, _, st => st
  | _ + 1, _, some e, st => { st with trace := st.trace ++ [.outCall (some e)] }
  | fuel + 1, handlers, none, st =>
    match handlers.get? st.routeIdx with
    | none => { st with trace := st.trace ++ [.outCall none] }
    | some beh =>
      let st1 := { st with routeIdx := st.routeIdx + 1,
                           trace := st.trace ++ [.routeCall st.routeIdx] }
      match beh with
      | .callNext e2 => execRoute fuel handlers e2 st1
      | .throwErr t => { st1 with trace := st1.trace ++ [.outCall (some t)] }
      | .finish => st1
      | .nextThenThrow e2 t =>
        let stA := execRoute fuel handlers e2 st1
        { stA with trace := stA.trace ++ [.outCall (some t)] }

/-- `executeMiddleware`: an error argument goes straight to `out(err)` —
4-argument error handlers are never consulted in this branch; middleware
exhaustion hands over to `executeRouteHandlers`; a matching `USE` layer has
its path stripped exactly as in the fallback loop, runs (4-arity middleware
receives `null`), and `req.path`/`req.baseUrl` are restored after the
handler returns or throws (a throw goes to `out(e)`). -/
def execMw {E : Type} :
    Nat → List (MLayer E) → List (HBeh E) → Method → Option E → RState E →
      RState E
  | 0, _, _, _, _, st => st
  | fuel + 1, _, handlers, _, some e, st =>
    let _ := (fuel, handlers)
    { st with trace := st.trace ++ [.outCall (some e)] }
  | fuel + 1, mwStack, handlers, m, none, st =>
    match mwStack.get? st.mwIdx with
    | none => execRoute fuel handlers none st
    | some layer =>
      let st1 := { st with mwIdx := st.mwIdx + 1 }
      let path := st.path
      if ¬ layerMatch layer path then execMw fuel mwStack handlers m none st1
      else
        let removed := if layer.method = .USE then layer.path else ""
        let st2 :=
          if removed ≠ "/" ∧ removed ≠ "" then
            { st1 with baseUrl := st1.baseUrl ++ removed,
                       path := orSlash (strDrop st1.path (strLen removed)) }
          else st1
        let st3 :=
          { st2 with params := objMerge st2.params (layerParams layer path) }
        let st4 := { st3 with trace := st3.trace ++
          [.mwCall st.mwIdx st3.path st3.baseUrl] }
        match layer.beh with
        | .callNext e2 =>
          let stA := execMw fuel mwStack handlers m e2 st4
          { stA with path := path, baseUrl := st.baseUrl }
        | .throwErr t =>
          { st4 with path := path, baseUrl := st.baseUrl,
                     trace := st4.trace ++ [.outCall (some t)] }
        | .finish => { st4 with path := path, baseUrl := st.baseUrl }
        | .nextThenThrow e2 t =>
          let stA := execMw fuel mwStack handlers m e2 st4
          { stA with path := path, baseUrl := st.baseUrl,
                     trace := stA.trace ++ [.outCall (some t)] }

/-- The radix branch of `Router.handle`: on a trie match, merge the matched
parameters into `req.params`, run every matching `USE` layer of the stack
through `executeMiddleware`, then the matched route's own handlers through
`executeRouteHandlers`. Returns `none` on a trie miss (the source then falls
through to the linear scan). -/
def handleRadix {E : Type} (t : RadixTree (HBeh E)) (stack : List (MLayer E))
    (m : Method) (path : String) : Option (RState E) :=
  match treeFind t m path with
  | none => none
  | some rp =>
    let mwStack := stack.filter (fun l => l.method = .USE)
    some (execMw (mwStack.length + rp.1.handlers.length + 2) mwStack
      rp.1.handlers m none ⟨0, 0, path, "", objMerge [] rp.2, []⟩)

/-- Outcome of one full `Router.handle` dispatch: either the radix fast path
handled it, or the linear fallback scan ran. -/
inductive HandleResult (E : Type) where
  | radix (st : RState E)
  | fallback (st : DState E)
deriving DecidableEq

/-- `Router.handle`: try the radix tree first when the router has one, fall
back to the linear stack scan. -/
def routerHandle {E : Type} (tree : Option (RadixTree (HBeh E)))
    (stack : List (MLayer E)) (m : Method) (path : String) : HandleResult E :=
  match tree with
  | some t =>
    match handleRadix t stack m path with
    | some st => .radix st
    | none => .fallback (handleFallback stack m path)
  | none => .fallback (handleFallback stack m path)

/-! ### Router registration surface (`router.ts`) -/

/-- Model router: the ordered layer stack and the configured prefix (the
radix tree, when enabled, is modeled separately by `routerHandle`'s `tree`
argument). -/
structure MRouter (E : Type) where
  stack : List (MLayer E)
  prefixStr : String

def emptyRouter {E : Type} : MRouter E := ⟨[], ""⟩

/-- `Router._joinPaths`. -/
def joinPaths (base p : String) : String :=
  if base = "/" ∨ base = "" then p
  else if p = "/" then base
  else
    let nb := if endsWithSlash base then String.mk base.toList.dropLast else base
    let np := if strStartsWith p "/" then p else "/" ++ p
    nb ++ np

/-- `Router._resolvePath`. -/
def resolvePath {E : Type} (r : MRouter E) (p : String) : String :=
  if r.prefixStr = "" then p else joinPaths r.prefixStr p

/-- `Router.route(method, path, ...handlers)` (stack side; with the radix
tree enabled the same route is also `add`ed to the tree). Each handler
becomes one layer; the `Layer` constructor drops the constraints
argument. -/
def routerRoute {E : Type} (r : MRouter E) (method : Method) (path : String)
    (handlers : List (Nat × HBeh E)) : MRouter E :=
  ⟨r.stack ++ handlers.map (fun ab =>
    ⟨method, resolvePath r path, ab.1, ab.2⟩), r.prefixStr⟩

/-- `Router.use(path?, ...handlers)`: path defaults to `/`. -/
def routerUse {E : Type} (r : MRouter E) (path : Option String)
    (handlers : List (Nat × HBeh E)) : MRouter E :=
  let p := match path with
    | some s => resolvePath r s
    | none => "/"
  ⟨r.stack ++ handlers.map (fun ab => ⟨.USE, p, ab.1, ab.2⟩), r.prefixStr⟩

/-- `Router.mount(path, subRouter)` (stack side): each of the sub-router's
layers is re-registered under `joinPaths(mountPath, layer.path)` with the
same handler. -/
def routerMount {E : Type} (r : MRouter E) (pfx : String) (sub : MRouter E) :
    MRouter E :=
  let mountPath := resolvePath r pfx
  ⟨r.stack ++ sub.stack.map (fun l =>
    ⟨l.method, joinPaths mountPath l.path, l.arity, l.beh⟩), r.prefixStr⟩

/-! ### Derived observation functions used in theorem statements -/

/-- The three candidate branches of one `_search` step, split out of the body
of `searchF` so the branch ordering can be stated: the loop over static
children. -/
def staticBranch {H : Type} (fuel : Nat)
    (children : List (String × RadixNode H)) (m : Method)
    (segs : List String) (i : Nat) (params : Params) :
    Option (RadixNode H × Params) :=
  children.foldl (fun acc kc =>
    match acc with
    | some r => some r
    | none =>
      if kc.2.path = segs.getD i "" then searchF fuel kc.2 m segs (i + 1) params
      else none) none

/-- The param-child branch of one `_search` step: bind the parameter name to
the current segment and recurse. -/
def paramBranch {H : Type} (fuel : Nat) (pc : Option (RadixNode H))
    (m : Method) (segs : List String) (i : Nat) (params : Params) :
    Option (RadixNode H × Params) :=
  match pc with
  | some c =>
    searchF fuel c m segs (i + 1) (mset params ((c.paramName).getD "") (segs.getD i ""))
  | none => none

/-- The wildcard branch of one `_search` step: terminal, binds the join of
all remaining segments, requires a route for the method (or `USE`) at the
wildcard child, and receives the params accumulated BEFORE any param-child
binding of this step. -/
def wildBranch {H : Type} (wc : Option (RadixNode H)) (m : Method)
    (segs : List String) (i : Nat) (params : Params) :
    Option (RadixNode H × Params) :=
  match wc with
  | some c =>
    if (mget c.routes m).isSome || (mget c.routes .USE).isSome then
      some (c, mset params ((c.paramName).getD "") (joinSlash (segs.drop i)))
    else none
  | none => none

/-- First index `≥ j` (scanning the given suffix of the stack) of a layer
that matches the path, is verb-compatible, and has the 4-argument
error-handling arity. -/
def firstErrAux {E : Type} (ls : List (MLayer E)) (m : Method) (path : String)
    (j : Nat) : Option Nat :=
  match ls with
  | [] => none
  | l :: rest =>
    if layerMatch l path && (l.method = .USE || l.method = m) && l.arity = 4
    then some j
    else firstErrAux rest m path (j + 1)

/-- Number of boundary-callback invocations in a fallback trace. -/
def countOut {E : Type} (tr : List (DEvent E)) : Nat :=
  tr.countP (fun ev =>
    match ev with
    | .outCall _ => true
    | _ => false)

/-- Number of boundary-callback invocations in a radix-branch trace. -/
def countOutR {E : Type} (tr : List (RaEvent E)) : Nat :=
  tr.countP (fun ev =>
    match ev with
    | .outCall _ => true
    | _ => false)

/-- Handler behaviors that respect the continuation contract: they call the
continuation exactly once (possibly with an error) or throw without having
called it; never both, and never neither. -/
def goodB {E : Type} : HBeh E → Bool
  | .callNext _ => true
  | .throwErr _ => true
  | .finish => false
  | .nextThenThrow _ _ => false

/-- Trace projection of a full dispatch outcome. -/
def handleTrace {E : Type} : HandleResult E → List (RaEvent E) ⊕ List (DEvent E)
  | .radix st => .inl st.trace
  | .fallback st => .inr st.trace

/-! ### Pattern families for the round-trip statement -/

/-- One non-catch-all segment of a registered pattern together with the
concrete value chosen for it when building a conforming path: a static
segment (value is the segment itself) or a named parameter with a chosen
value. -/
inductive PatSeg where
  | stat (s : String)
  | par (name : String) (value : String)

def PatSeg.patOf : PatSeg → String
  | .stat s => s
  | .par n _ => ":" ++ n

def PatSeg.valOf : PatSeg → String
  | .stat s => s
  | .par _ v => v

/-- Parameter bindings induced by the chosen values. -/
def bindsOf (specs : List PatSeg) : Params :=
  specs.filterMap (fun sp =>
    match sp with
    | .stat _ => none
    | .par n v => some (n, v))

/-- Parameter names of the non-catch-all part. -/
def parNamesOf (specs : List PatSeg) : List String :=
  specs.filterMap (fun sp =>
    match sp with
    | .stat _ => none
    | .par n _ => some n)

/-- The registered pattern: `/seg1/seg2/...`, with an optional final
catch-all `*name`. -/
def patternOf (specs : List PatSeg) (copt : Option (String × List String)) :
    String :=
  "/" ++ joinSlash (specs.map PatSeg.patOf ++
    (match copt with
     | some c => ["*" ++ c.1]
     | none => []))

/-- The conforming path: each parameter replaced by its chosen value, the
catch-all replaced by its chosen remainder segments. -/
def pathOf (specs : List PatSeg) (copt : Option (String × List String)) :
    String :=
  "/" ++ joinSlash (specs.map PatSeg.valOf ++
    (match copt with
     | some c => c.2
     | none => []))

/-- All parameter bindings the path construction used. -/
def allBindsOf (specs : List PatSeg) (copt : Option (String × List String)) :
    Params :=
  bindsOf specs ++
    (match copt with
     | some c => [(c.1, joinSlash c.2)]
     | none => [])

/-- All parameter names of the pattern. -/
def allNamesOf (specs : List PatSeg) (copt : Option (String × List String)) :
    List String :=
  parNamesOf specs ++
    (match copt with
     | some c => [c.1]
     | none => [])

/-- Well-formedness of one pattern segment and its chosen value: a static
segment is nonempty, separator-free and classified as static; a parameter
segment `:name` has a nonempty separator-free name that parses back to
itself, and its chosen value is a nonempty separator-free string. -/
def goodSpec : PatSeg → Prop
  | .stat s => s ≠ "" ∧ '/' ∉ s.toList ∧ (classifySeg s).ty = .STATIC
  | .par n v => paramSegName (":" ++ n) = some n ∧ n ≠ "" ∧ '/' ∉ n.toList ∧
      v ≠ "" ∧ '/' ∉ v.toList

/-- The parsed `Seg` a well-formed `PatSeg` produces. -/
def expSeg : PatSeg → Seg
  | .stat s => ⟨s, .STATIC, none⟩
  | .par n _ => ⟨":" ++ n, .PARAM, some n⟩

/-- The parsed segment list of `patternOf specs copt`. -/
def segsOf (specs : List PatSeg) (copt : Option (String × List String)) :
    List Seg :=
  specs.map expSeg ++
    (match copt with
     | some c => [⟨"*" ++ c.1, .CATCH_ALL, some c.1⟩]
     | none => [])

/-- The segment list of `pathOf specs copt`. -/
def valsOf (specs : List PatSeg) (copt : Option (String × List String)) :
    List String :=
  specs.map PatSeg.valOf ++
    (match copt with
     | some c => c.2
     | none => [])

instance : DecidablePred goodSpec := fun sp => by
  cases sp <;> simp [goodSpec] <;> infer_instance

/-- Well-formedness of the optional catch-all: nonempty separator-free name,
nonempty remainder of nonempty separator-free segments. -/
def goodCatch : Option (String × List String) → Prop
  | none => True
  | some (n, vs) =>
    n ≠ "" ∧ '/' ∉ n.toList ∧ vs ≠ [] ∧ ∀ v ∈ vs, v ≠ "" ∧ '/' ∉ v.toList

instance : DecidablePred goodCatch := fun c => by
  cases c with
  | none => exact .isTrue trivial
  | some p => simp [goodCatch]; infer_instance

/-! ### Concrete instances used by the individual claims -/

/-- Digit-string test, used as a concrete embedded `RegExp` constraint
(`/^\d+$/`). -/
def isDigits (s : String) : Bool := s.toList.all Char.isDigit && s ≠ ""

/-- `GET /users/:id` alone in a tree. -/
def usersTree : RadixTree Nat := treeAdd emptyTree .GET "/users/:id" [1] []

/-- `GET /items/:id` with a digits constraint on `id`, plus `GET
/items/*rest`. -/
def itemsTree : RadixTree Nat :=
  treeAdd (treeAdd emptyTree .GET "/items/:id" [10]
      [("id", ⟨some isDigits, none⟩)])
    .GET "/items/*rest" [20] []

/-- The routes and inner nodes of `itemsTree`, written out (each equation is
checked by `rfl` in the proofs below). -/
def itemsRouteParam : RouteDefinition Nat :=
  ⟨.GET, "/items/:id", [10], [("id", ⟨some isDigits, none⟩)], ["id"]⟩

def itemsRouteWild : RouteDefinition Nat :=
  ⟨.GET, "/items/*rest", [20], [], ["rest"]⟩

def itemsParamNode : RadixNode Nat :=
  .mk ":id" .PARAM (some "id") [] [(.GET, itemsRouteParam)] 1 none none

def itemsWcNode : RadixNode Nat :=
  .mk "*rest" .CATCH_ALL (some "rest") [] [(.GET, itemsRouteWild)] 1 none none

def itemsNode : RadixNode Nat :=
  .mk "items" .STATIC none [] [] 0 (some itemsWcNode) (some itemsParamNode)

/-- The inner nodes of `filesTree`, written out. -/
def filesWcNode : RadixNode Nat :=
  .mk "*rest" .CATCH_ALL (some "rest") []
    [(.GET, ⟨.GET, "/files/*rest", [3], [("rest", ⟨some isDigits, none⟩)],
      ["rest"]⟩)] 1 none none

def filesNode : RadixNode Nat :=
  .mk "files" .STATIC none [] [] 0 (some filesWcNode) none

/-- Two different parameter names registered at the same trie position. -/
def conflictTree : RadixTree Nat :=
  treeAdd (treeAdd emptyTree .GET "/x/:a" [1] []) .GET "/x/:b" [2] []

/-- A catch-all segment not in final position. -/
def starTree : RadixTree Nat := treeAdd emptyTree .GET "/a/*/b" [5] []

/-- The nodes `starTree` consists of, written out (checked by `rfl` below):
the route ends up below the wildcard child, where `_search` never looks. -/
def starNodeB : RadixNode Nat :=
  .mk "b" .STATIC none [] [(.GET, ⟨.GET, "/a/*/b", [5], [], ["wildcard"]⟩)]
    1 none none

def starNodeW : RadixNode Nat :=
  .mk "*" .CATCH_ALL (some "wildcard") [("b", starNodeB)] [] 0 none none

def starNodeA : RadixNode Nat :=
  .mk "a" .STATIC none [] [] 0 (some starNodeW) none

/-- A pattern with an optional parameter marker. -/
def optTree : RadixTree Nat := treeAdd emptyTree .GET "/users/:id?" [7] []

/-- A catch-all route carrying a (digits) constraint on its captured
parameter. -/
def filesTree : RadixTree Nat :=
  treeAdd emptyTree .GET "/files/*rest" [3] [("rest", ⟨some isDigits, none⟩)]

/-- A static route and a parameter route competing for the same path. -/
def shadowTree : RadixTree Nat :=
  treeAdd (treeAdd emptyTree .GET "/s/me" [1] []) .GET "/s/:id" [2] []

/-- A param route whose subtree cannot complete, next to a catch-all. -/
def backTree : RadixTree Nat :=
  treeAdd (treeAdd emptyTree .GET "/s/:id/x" [1] []) .GET "/s/*r" [2] []

/-- Radix-enabled router scenario: matched route `GET /a`, one erroring
3-arity middleware followed by a 4-argument error middleware. -/
def radixErrTree : RadixTree (HBeh Nat) :=
  treeAdd emptyTree .GET "/a" [.callNext none] []

def radixErrStack : List (MLayer Nat) :=
  [⟨.USE, "/", 3, .callNext (some 7)⟩, ⟨.USE, "/", 4, .callNext none⟩]

/-- A matching handler that produces the response and never calls its
continuation. -/
def finishStack : List (MLayer Nat) := [⟨.GET, "/a", 3, .finish⟩]

/-- A matching handler that calls its continuation and then throws. -/
def dblStack : List (MLayer Nat) := [⟨.GET, "/a", 3, .nextThenThrow none 5⟩]

/-- A stack of contract-respecting handlers: middleware, an erroring route
handler, an error middleware, and a recovering route handler. -/
def goodStack : List (MLayer Nat) :=
  [⟨.USE, "/", 3, .callNext none⟩, ⟨.GET, "/a", 3, .throwErr 3⟩,
   ⟨.USE, "/", 4, .callNext none⟩, ⟨.GET, "/a", 3, .callNext none⟩]

/-- Sub-router with `GET /ping`, mounted at `/api`. -/
def pingSub : MRouter Nat := routerRoute emptyRouter .GET "/ping" [(3, .callNext none)]

def apiRouter : MRouter Nat := routerMount emptyRouter "/api" pingSub

/-- Middleware registered at `/api` (the case that does strip). -/
def apiUseRouter : MRouter Nat :=
  routerUse emptyRouter (some "/api") [(3, .callNext none)]

/-! ## Theorems -/

/-! ### Stepping lemmas for `searchF` -/

/-- One non-base step of `_search` is the ordered composition of the three
candidate branches: static children first, then the param child, then the
wildcard child. -/
theorem searchF_step {H : Type} (fuel : Nat) (node : RadixNode H) (m : Method)
    (segs : List String) (i : Nat) (params : Params) (hi : i < segs.length) :
    searchF (fuel + 1) node m segs i params =
      (staticBranch fuel node.children m segs i params).orElse (fun _ =>
        (paramBranch fuel node.paramChild m segs i params).orElse (fun _ =>
          wildBranch node.wildcardChild m segs i params)) := by
  simp only [searchF]
  rw [if_neg (by omega)]
  show (match staticBranch fuel node.children m segs i params with
    | some r => some r
    | none =>
      match paramBranch fuel node.paramChild m segs i params with
      | some r => some r
      | none => wildBranch node.wildcardChild m segs i params) = _
  cases hs : staticBranch fuel node.children m segs i params with
  | some r => rfl
  | none =>
    cases hp : paramBranch fuel node.paramChild m segs i params with
    | some r => rfl
    | none => rfl

/-- The base case of `_search`: look up the route for the verb (falling back
to `USE`) and validate its constraints. -/
theorem searchF_base {H : Type} (fuel : Nat) (node : RadixNode H) (m : Method)
    (segs : List String) (i : Nat) (params : Params) (hi : i = segs.length) :
    searchF (fuel + 1) node m segs i params =
      (match (mget node.routes m).orElse (fun _ => mget node.routes .USE) with
       | some route =>
         if constraintsFail route.constraints params then none
         else some (node, params)
       | none => none) := by
  simp only [searchF]
  rw [if_pos hi]
  cases h1 : mget node.routes m with
  | some r => simp [h1, Option.orElse]
  | none =>
    cases h2 : mget node.routes Method.USE with
    | some r => simp [h1, h2, Option.orElse]
    | none => simp [h1, h2, Option.orElse]

/-- A node with a single static child and no param/wildcard child steps into
that child when the child's text equals the whole current segment. -/
theorem searchF_one_child_hit {H : Type} (fuel : Nat) (p : String)
    (ty : NodeType) (pn : Option String) (k : String) (c : RadixNode H)
    (rts : List (Method × RouteDefinition H)) (pr : Nat) (m : Method)
    (segs : List String) (i : Nat) (params : Params) (hi : i < segs.length)
    (hc : c.path = segs.getD i "") :
    searchF (fuel + 1) (.mk p ty pn [(k, c)] rts pr none none) m segs i params =
      searchF fuel c m segs (i + 1) params := by
  rw [searchF_step fuel _ m segs i params hi]
  simp only [RadixNode.children, RadixNode.paramChild, RadixNode.wildcardChild,
    staticBranch, paramBranch, wildBranch, List.foldl]
  rw [if_pos hc]
  cases hres : searchF fuel c m segs (i + 1) params <;> simp [Option.orElse]

/-- A node with a single static child and no param/wildcard child yields no
match when the child's text differs from the current segment. -/
theorem searchF_one_child_miss {H : Type} (fuel : Nat) (p : String)
    (ty : NodeType) (pn : Option String) (k : String) (c : RadixNode H)
    (rts : List (Method × RouteDefinition H)) (pr : Nat) (m : Method)
    (segs : List String) (i : Nat) (params : Params) (hi : i < segs.length)
    (hc : ¬ c.path = segs.getD i "") :
    searchF (fuel + 1) (.mk p ty pn [(k, c)] rts pr none none) m segs i params =
      none := by
  rw [searchF_step fuel _ m segs i params hi]
  simp only [RadixNode.children, RadixNode.paramChild, RadixNode.wildcardChild,
    staticBranch, paramBranch, wildBranch, List.foldl]
  rw [if_neg hc]
  simp [Option.orElse]

/-- A node with no static children steps through its param child (binding the
segment) and then its wildcard child. -/
theorem searchF_pc_wc {H : Type} (fuel : Nat) (p : String) (ty : NodeType)
    (pn : Option String)
    (rts : List (Method × RouteDefinition H)) (pr : Nat)
    (wc pc : Option (RadixNode H)) (m : Method)
    (segs : List String) (i : Nat) (params : Params) (hi : i < segs.length) :
    searchF (fuel + 1) (.mk p ty pn [] rts pr wc pc) m segs i params =
      ((paramBranch fuel pc m segs i params).orElse (fun _ =>
        wildBranch wc m segs i params)) := by
  rw [searchF_step fuel _ m segs i params hi]
  simp only [RadixNode.children, RadixNode.paramChild, RadixNode.wildcardChild,
    staticBranch, List.foldl, Option.orElse]

/-- Claim C10: `RadixTree.find` observes the queried path only through
`path.split("/").filter(Boolean)`, so any two paths with the same nonempty
segments — in particular paths differing only in repeated or trailing
separators — produce the same match and the same parameter bindings. -/
theorem find_slash_normalization {H : Type} (t : RadixTree H) (m : Method)
    (p1 p2 : String) (h : splitSlash p1 = splitSlash p2) :
    treeFind t m p1 = treeFind t m p2 := by
  unfold treeFind
  rw [h]

/-- Witness for C10 at `/users//42/` versus `/users/42`: same result, and the
common result carries the binding `id ↦ 42`. -/
theorem find_slash_normalization_witness :
    treeFind usersTree .GET "/users//42/" = treeFind usersTree .GET "/users/42"
    ∧ found (treeFind usersTree .GET "/users/42") =
        some ("/users/:id", [1], [("id", "42")]) :=
  ⟨find_slash_normalization usersTree .GET "/users//42/" "/users/42" (by decide),
   by decide⟩

/-- Claim C5 (counterexample): neither configuration error raises.
Registering `/x/:a` and then `/x/:b` both succeed (`routeCount = 2`); the
second registration silently reuses the param child created for `:a`, so
the later route is found with its parameter bound under the FIRST name
`a`. A catch-all in non-final position (`/a/*/b`) is also accepted
silently (`routeCount = 1`) and simply never matches. -/
theorem registration_conflicts_silently_accepted :
    conflictTree.routeCount = 2 ∧
    found (treeFind conflictTree .GET "/x/7") = some ("/x/:b", [2], [("a", "7")]) ∧
    starTree.routeCount = 1 ∧
    found (treeFind starTree .GET "/a/x/b") = none := by decide

/-- Claim C5 (amended): registration never raises. A second, different
parameter name at an occupied trie position is silently dropped — the first
name wins and the new route's parameter binds under it — and a catch-all
segment not in final position is silently accepted, producing a route that
no request can ever match (`_search` never descends past a wildcard
child). -/
theorem registration_conflict_behavior :
    (conflictTree.routeCount = 2 ∧
     found (treeFind conflictTree .GET "/x/7") =
       some ("/x/:b", [2], [("a", "7")])) ∧
    (starTree.routeCount = 1 ∧ ∀ p : String, treeFind starTree .GET p = none) := by
  refine ⟨⟨by decide, by decide⟩, by decide, ?_⟩
  intro p
  have hroot : starTree.root =
      .mk "" .STATIC none [("a", starNodeA)] [] 0 none none := rfl
  have key : ∀ segs : List String,
      searchF (segs.length + 1) starTree.root .GET segs 0 [] = none := by
    intro segs
    match segs with
    | [] => rfl
    | s :: rest =>
      rw [hroot]
      simp only [List.length_cons, Nat.zero_add]
      by_cases hs : s = "a"
      · subst hs
        rw [searchF_one_child_hit (rest.length + 1) "" .STATIC none "a"
          starNodeA [] 0 .GET ("a" :: rest) 0 [] (by simp) rfl]
        simp only [Nat.zero_add]
        match rest with
        | [] => rfl
        | s2 :: rest2 =>
          simp only [List.length_cons]
          rw [show starNodeA =
            .mk "a" .STATIC none [] [] 0 (some starNodeW) none from rfl]
          rw [searchF_pc_wc (rest2.length + 1) "a" .STATIC none
            [] 0 (some starNodeW) none .GET ("a" :: s2 :: rest2) 1 [] (by simp)]
          rfl
      · rw [searchF_one_child_miss (rest.length + 1) "" .STATIC none "a"
          starNodeA [] 0 .GET (s :: rest) 0 [] (by simp)
          (by simpa [starNodeA, RadixNode.path, eq_comm] using hs)]
  simp only [treeFind]
  rw [key (splitSlash p)]

/-- Claim C7 (counterexample): the trie treats `:id?` as a required
parameter (`_parsePath` discards the optional marker), so for the
registered pattern `/users/:id?` the conforming path `/users` — optional
parameter omitted, which its segment classification permits — does not
resolve at all, breaking the round-trip; supplying a value works. -/
theorem roundtrip_optional_param_fails :
    optTree.routeCount = 1 ∧
    found (treeFind optTree .GET "/users") = none ∧
    found (treeFind optTree .GET "/users/9") =
      some ("/users/:id?", [7], [("id", "9")]) := by decide

/-- Claim C8 (counterexample): mounting rewrites the sub-router's layer path
to `/api/ping`, and path stripping applies only to `USE` layers
(`removed = layer.method === "USE" ? layer.path : ""`), so the mounted
`GET /ping` handler executes with `req.path` still `/api/ping` — the `/api`
prefix is NOT stripped for it (and `req.baseUrl` stays empty). -/
theorem mounted_route_path_not_stripped :
    apiRouter.stack.map (fun l => l.path) = ["/api/ping"] ∧
    (handleFallback apiRouter.stack .GET "/api/ping").trace =
      [.handlerCall 0 none "/api/ping" "", .outCall none] := by decide

/-- Claim C8 (amended): mounting `GET /ping` at `/api` does make
`GET /api/ping` resolve to that handler, but the handler sees the full
original path; prefix stripping (path moved onto the base-prefix
accumulator) happens only for `USE` layers whose registered path is the
prefix, and for those the original path is restored after the handler
finishes. -/
theorem mount_resolution_and_use_stripping :
    ((handleFallback apiRouter.stack .GET "/api/ping").trace =
      [.handlerCall 0 none "/api/ping" "", .outCall none]) ∧
    ((handleFallback apiUseRouter.stack .GET "/api/ping").trace =
      [.handlerCall 0 none "/ping" "/api", .outCall none]) ∧
    ((handleFallback apiUseRouter.stack .GET "/api/ping").path = "/api/ping") ∧
    ((handleFallback apiUseRouter.stack .GET "/api/ping").baseUrl = "") := by
  decide

/-- Claim C1 (counterexample): in the radix fast path, a normal middleware
that passes an error to its continuation short-circuits straight to the
boundary callback: with `GET /a` matched in the tree, middleware 0 errors
with `7`, and although the next layer is a matching 4-argument error
middleware, it is never invoked — the boundary receives the error
instead. -/
theorem radix_error_skips_error_handlers :
    handleTrace (routerHandle (some radixErrTree) radixErrStack .GET "/a") =
      .inl [.mwCall 0 "/a" "", .outCall (some 7)] ∧
    radixErrStack.get? 1 = some ⟨.USE, "/", 4, .callNext none⟩ ∧
    layerMatch (⟨.USE, "/", 4, .callNext none⟩ : MLayer Nat) "/a" = true := by
  decide

/-- Claim C3 (counterexample): the boundary callback is not invoked exactly
once per dispatch. A matching handler that produces the response and never
calls its continuation leaves the boundary uninvoked (0 calls), and a
handler that calls its continuation and then throws produces two calls. -/
theorem boundary_not_called_on_finish :
    countOut (handleFallback finishStack .GET "/a").trace = 0 ∧
    (handleFallback finishStack .GET "/a").trace =
      [.handlerCall 0 none "/a" ""] ∧
    countOut (handleFallback dblStack .GET "/a").trace = 2 := by decide

/-! ### Path-splitting lemmas -/

/-- Splitting a separator-free character run yields a single piece. -/
theorem splitSepsAux_no_slash (cs : List Char) :
    ∀ cur, '/' ∉ cs → splitSepsAux cs cur = [cur.reverse ++ cs] := by
  induction cs with
  | nil => intro cur _; simp [splitSepsAux]
  | cons c rest ih =>
    intro cur h
    have hc : c ≠ '/' := fun hc => h (hc ▸ List.mem_cons_self c rest)
    have hr : '/' ∉ rest := fun hr => h (List.mem_cons_of_mem c hr)
    rw [show splitSepsAux (c :: rest) cur = splitSepsAux rest (c :: cur) by
      simp [splitSepsAux, hc]]
    rw [ih (c :: cur) hr]
    simp

/-- Splitting at the first separator after a separator-free run. -/
theorem splitSepsAux_break (l : List Char) :
    ∀ rest cur, '/' ∉ l →
      splitSepsAux (l ++ '/' :: rest) cur =
        (cur.reverse ++ l) :: splitSepsAux rest [] := by
  induction l with
  | nil => intro rest cur _; simp [splitSepsAux]
  | cons c l2 ih =>
    intro rest cur h
    have hc : c ≠ '/' := fun hc => h (hc ▸ List.mem_cons_self c l2)
    have hl : '/' ∉ l2 := fun hr => h (List.mem_cons_of_mem c hr)
    rw [List.cons_append]
    rw [show splitSepsAux (c :: (l2 ++ '/' :: rest)) cur =
        splitSepsAux (l2 ++ '/' :: rest) (c :: cur) by
      simp [splitSepsAux, hc]]
    rw [ih rest (c :: cur) hl]
    simp

/-- A string is nonempty iff its character list is. -/
theorem ne_empty_iff_data (s : String) : s ≠ "" ↔ s.data ≠ [] := by
  cases s with
  | mk d => simp [String.ext_iff]

/-- `joinSlash` of a single segment is that segment. -/
theorem joinSlash_singleton (x : String) : joinSlash [x] = x := by
  show String.mk (List.intercalate ['/'] [x.toList]) = x
  simp [List.intercalate]

/-- The segment list of `"/items/" ++ s` for a nonempty separator-free
`s`. -/
theorem splitSlash_items (s : String) (hne : s ≠ "") (hsl : '/' ∉ s.toList) :
    splitSlash ("/items/" ++ s) = ["items", s] := by
  have hdata : ("/items/" ++ s).toList =
      '/' :: (['i', 't', 'e', 'm', 's'] ++ '/' :: s.toList) := by
    show ("/items/" ++ s).data = _
    rw [String.data_append]
    rfl
  unfold splitSlash
  rw [hdata]
  rw [show splitSepsAux ('/' :: (['i', 't', 'e', 'm', 's'] ++ '/' :: s.toList))
      [] = [] :: splitSepsAux (['i', 't', 'e', 'm', 's'] ++ '/' :: s.toList) []
    from rfl]
  rw [splitSepsAux_break ['i', 't', 'e', 'm', 's'] (s.toList) [] (by decide)]
  rw [splitSepsAux_no_slash s.toList [] hsl]
  have hsd : s.data ≠ [] := (ne_empty_iff_data s).mp hne
  have h1 : s.toList ≠ [] := hsd
  simp only [List.filter, List.map, List.reverse_nil, List.nil_append]
  rw [show decide (s.toList ≠ []) = true by simp; exact hsd]
  rfl

/-- Claim C6: one `_search` step tries candidates in the order
static > param > catch-all: the step is the left-biased composition of the
three branches, the wildcard branch receiving the parameter map from BEFORE
the param-child binding (backtracking undoes the binding). Concretely, a
static route beats a param route for the same path (no `id` binding leaks),
and when the param subtree cannot complete, the catch-all wins with the
param binding undone. -/
theorem search_specificity_order {H : Type} (fuel : Nat) (node : RadixNode H)
    (m : Method) (segs : List String) (i : Nat) (params : Params)
    (hi : i < segs.length) :
    (searchF (fuel + 1) node m segs i params =
      (staticBranch fuel node.children m segs i params).orElse (fun _ =>
        (paramBranch fuel node.paramChild m segs i params).orElse (fun _ =>
          wildBranch node.wildcardChild m segs i params)))
    ∧ found (treeFind shadowTree .GET "/s/me") = some ("/s/me", [1], [])
    ∧ found (treeFind backTree .GET "/s/me") =
        some ("/s/*r", [2], [("r", "me")]) :=
  ⟨searchF_step fuel node m segs i params hi, by decide, by decide⟩

/-- Witness for C6 at a concrete node, segment list and index. -/
theorem search_specificity_order_witness :
    searchF 1 starTree.root .GET ["q"] 0 [] =
      (staticBranch 0 starTree.root.children .GET ["q"] 0 []).orElse (fun _ =>
        (paramBranch 0 starTree.root.paramChild .GET ["q"] 0 []).orElse
          (fun _ => wildBranch starTree.root.wildcardChild .GET ["q"] 0 [])) :=
  (search_specificity_order 0 starTree.root .GET ["q"] 0 [] (by decide)).1

/-- Claim C9: when the wildcard branch concludes a search, no constraint is
consulted — the conclusion holds for every node and constraint map, since
constraint validation exists only in the zero-remaining-segments base case.
Concretely, `/files/*rest` constrained to digits still matches
`/files/abc`, returning a match that violates its own constraint map. -/
theorem wildcard_skips_constraints {H : Type} (fuel : Nat) (node : RadixNode H)
    (m : Method) (segs : List String) (i : Nat) (params : Params)
    (wc : RadixNode H) (hi : i < segs.length)
    (hstat : staticBranch fuel node.children m segs i params = none)
    (hpar : paramBranch fuel node.paramChild m segs i params = none)
    (hwc : node.wildcardChild = some wc)
    (hroutes : (mget wc.routes m).isSome || (mget wc.routes Method.USE).isSome) :
    (searchF (fuel + 1) node m segs i params =
      some (wc, mset params ((wc.paramName).getD "") (joinSlash (segs.drop i))))
    ∧ (treeFind filesTree .GET "/files/abc").map
        (fun rp => constraintsFail rp.1.constraints rp.2) = some true
    ∧ found (treeFind filesTree .GET "/files/abc") =
        some ("/files/*rest", [3], [("rest", "abc")]) := by
  refine ⟨?_, by decide, by decide⟩
  rw [searchF_step fuel node m segs i params hi, hstat, hpar]
  show wildBranch node.wildcardChild m segs i params = _
  rw [hwc]
  show (if ((mget wc.routes m).isSome || (mget wc.routes Method.USE).isSome) =
      true then _ else none) = _
  rw [if_pos hroutes]

/-- Witness for C9: the wildcard step inside `filesTree`, at the `files`
node with one remaining segment. -/
theorem wildcard_skips_constraints_witness :
    searchF 1 filesNode .GET ["files", "abc"] 1 [] =
      some (filesWcNode, mset [] "rest" (joinSlash ["abc"])) :=
  (wildcard_skips_constraints 0 filesNode .GET ["files", "abc"] 1 [] filesWcNode
    (by decide) rfl rfl rfl (by decide)).1

/-- Claim C2: a parameter-constraint failure during trie resolution is a
local "no match" — no error is raised (there is no `throw` on this path, the
embedding is a total function) — and the search backtracks to the next
candidate branch before giving up: for every nonempty separator-free value
`s`, resolving `/items/<s>` against `/items/:id` (digits-constrained) plus
`/items/*rest` falls through to the catch-all route exactly when the
constraint rejects `s`, and yields the constrained param route when it
accepts `s`. (The constraint branch of the linear fallback at
router.ts:336-341 is unreachable: the `Layer` constructor drops its
constraints argument, so layer constraints are never set and all runtime
constraint checking happens here.) -/
theorem constraint_failure_backtracks (s : String) (hne : s ≠ "")
    (hsl : '/' ∉ s.toList) :
    (isDigits s = false → found (treeFind itemsTree .GET ("/items/" ++ s)) =
        some ("/items/*rest", [20], [("rest", s)])) ∧
    (isDigits s = true → found (treeFind itemsTree .GET ("/items/" ++ s)) =
        some ("/items/:id", [10], [("id", s)])) := by
  have hsegs := splitSlash_items s hne hsl
  have hroot : itemsTree.root =
      .mk "" .STATIC none [("i", itemsNode)] [] 0 none none := rfl
  have hpb : paramBranch 1 (some itemsParamNode) .GET ["items", s] 1 [] =
      (if isDigits s then some (itemsParamNode, [("id", s)]) else none) := by
    show searchF (0 + 1) itemsParamNode .GET ["items", s] 2 [("id", s)] = _
    rw [searchF_base 0 itemsParamNode .GET ["items", s] 2 [("id", s)] (by simp)]
    show (if constraintsFail itemsRouteParam.constraints [("id", s)]
        then none else some (itemsParamNode, [("id", s)])) = _
    have hcf : constraintsFail itemsRouteParam.constraints [("id", s)] =
        !isDigits s := by
      show ((!isDigits s || false) || false) = !isDigits s
      simp
    rw [hcf]
    cases hd : isDigits s <;> simp
  have hwb : wildBranch (some itemsWcNode) .GET ["items", s] 1 [] =
      some (itemsWcNode, [("rest", s)]) := by
    show (if ((mget itemsWcNode.routes .GET).isSome ||
        (mget itemsWcNode.routes Method.USE).isSome)
        then some (itemsWcNode, mset [] ((itemsWcNode.paramName).getD "")
          (joinSlash (["items", s].drop 1)))
        else none) = _
    rw [if_pos (by decide)]
    rw [show joinSlash (["items", s].drop 1) = s from joinSlash_singleton s]
    rfl
  have hmain : searchF (["items", s].length + 1) itemsTree.root .GET
      ["items", s] 0 [] =
      (if isDigits s then some (itemsParamNode, [("id", s)])
       else some (itemsWcNode, [("rest", s)])) := by
    show searchF (2 + 1) itemsTree.root .GET ["items", s] 0 [] = _
    rw [hroot]
    rw [searchF_one_child_hit 2 "" .STATIC none "i" itemsNode [] 0 .GET
      ["items", s] 0 [] (by simp) rfl]
    show searchF (1 + 1) itemsNode .GET ["items", s] 1 [] = _
    rw [show itemsNode = .mk "items" .STATIC none [] [] 0 (some itemsWcNode)
      (some itemsParamNode) from rfl]
    rw [searchF_pc_wc 1 "items" .STATIC none [] 0 (some itemsWcNode)
      (some itemsParamNode) .GET ["items", s] 1 [] (by simp)]
    rw [hpb, hwb]
    cases hd : isDigits s <;> simp [Option.orElse]
  constructor <;> intro hd
  · simp only [treeFind, hsegs]
    rw [hmain, hd]
    rfl
  · simp only [treeFind, hsegs]
    rw [hmain, hd]
    rfl

/-- Witness for C2 at the failing value `abc` and the passing value `7`. -/
theorem constraint_failure_backtracks_witness :
    found (treeFind itemsTree .GET ("/items/" ++ "abc")) =
      some ("/items/*rest", [20], [("rest", "abc")]) ∧
    found (treeFind itemsTree .GET ("/items/" ++ "7")) =
      some ("/items/:id", [10], [("id", "7")]) :=
  ⟨(constraint_failure_backtracks "abc" (by decide) (by decide)).1 (by decide),
   (constraint_failure_backtracks "7" (by decide) (by decide)).2 (by decide)⟩

/-! ### Layer pattern lemmas -/

theorem stripState_trace {E : Type} (l : MLayer E) (s : DState E) :
    (stripState l s).trace = s.trace := by
  unfold stripState
  dsimp only
  split <;> first
    | rfl
    | (split <;> rfl)

theorem stripState_idx {E : Type} (l : MLayer E) (s : DState E) :
    (stripState l s).idx = s.idx := by
  unfold stripState
  dsimp only
  split <;> first
    | rfl
    | (split <;> rfl)

theorem mergeParams_trace {E : Type} (l : MLayer E) (p : String)
    (s : DState E) : (mergeParams l p s).trace = s.trace := rfl

theorem mergeParams_idx {E : Type} (l : MLayer E) (p : String)
    (s : DState E) : (mergeParams l p s).idx = s.idx := rfl

theorem pushEvent_trace {E : Type} (ev : DEvent E) (s : DState E) :
    (pushEvent ev s).trace = s.trace ++ [ev] := rfl

theorem pushEvent_idx {E : Type} (ev : DEvent E) (s : DState E) :
    (pushEvent ev s).idx = s.idx := rfl

theorem restoreState_trace {E : Type} (p b : String) (s : DState E) :
    (restoreState p b s).trace = s.trace := rfl

theorem countOut_append {E : Type} (a b : List (DEvent E)) :
    countOut (a ++ b) = countOut a + countOut b := by
  simp [countOut, List.countP_append]

/-- Under the continuation contract (each handler calls `next` exactly once
or throws), one run of the fallback `next` loop invokes the boundary
callback exactly once. -/
theorem nextRun_out_count {E : Type} (stack : List (MLayer E)) (m : Method) :
    ∀ (fuel : Nat) (err : Option E) (st : DState E),
      (∀ l ∈ stack, goodB l.beh = true) →
      stack.length - st.idx < fuel →
      countOut (nextRun fuel stack m err st).trace = countOut st.trace + 1 := by
  intro fuel
  induction fuel with
  | zero => intro err st _ hf; omega
  | succ f ih =>
    intro err st hg hf
    cases hget : stack.get? st.idx with
    | none =>
      simp only [nextRun, hget]
      simp [pushEvent_trace, countOut_append, countOut]
    | some layer =>
      have hmem : layer ∈ stack := List.get?_mem hget
      have hgood := hg layer hmem
      have hidx : st.idx < stack.length := by
        by_contra hc
        rw [List.get?_eq_none.mpr (by omega)] at hget
        exact Option.noConfusion hget
      have hf2 : stack.length - (st.idx + 1) < f := by omega
      cases err with
      | some e =>
        simp only [nextRun, hget]
        by_cases hmatch : layerMatch layer st.path = true
        · rw [if_neg (not_not_intro hmatch)]
          by_cases hmm : (layer.method ≠ Method.USE ∧ layer.method ≠ m)
          · rw [if_pos hmm]
            exact ih (some e) _ hg hf2
          · rw [if_neg hmm]
            by_cases har : layer.arity = 4
            · rw [if_pos har]
              cases hb : layer.beh with
              | callNext e2 =>
                simp only [runBeh, restoreState_trace]
                rw [ih e2 _ hg (by
                  simpa [pushEvent_idx, mergeParams_idx, stripState_idx]
                    using hf2)]
                simp [pushEvent_trace, mergeParams_trace, stripState_trace,
                  countOut_append, countOut]
              | throwErr t =>
                simp only [runBeh, restoreState_trace]
                rw [ih (some t) _ hg (by
                  simpa [pushEvent_idx, mergeParams_idx, stripState_idx]
                    using hf2)]
                simp [pushEvent_trace, mergeParams_trace, stripState_trace,
                  countOut_append, countOut]
              | finish => rw [hb] at hgood; simp [goodB] at hgood
              | nextThenThrow e2 t => rw [hb] at hgood; simp [goodB] at hgood
            · rw [if_neg har]
              simp only [restoreState_trace]
              rw [ih (some e) _ hg (by
                simpa [mergeParams_idx, stripState_idx] using hf2)]
              simp [mergeParams_trace, stripState_trace]
        · rw [if_pos hmatch]
          exact ih (some e) _ hg hf2
      | none =>
        simp only [nextRun, hget]
        by_cases hmatch : layerMatch layer st.path = true
        · rw [if_neg (not_not_intro hmatch)]
          by_cases hmm : (layer.method ≠ Method.USE ∧ layer.method ≠ m)
          · rw [if_pos hmm]
            exact ih none _ hg hf2
          · rw [if_neg hmm]
            by_cases har : layer.arity < 4
            · rw [if_pos har]
              cases hb : layer.beh with
              | callNext e2 =>
                simp only [runBeh, restoreState_trace]
                rw [ih e2 _ hg (by
                  simpa [pushEvent_idx, mergeParams_idx, stripState_idx]
                    using hf2)]
                simp [pushEvent_trace, mergeParams_trace, stripState_trace,
                  countOut_append, countOut]
              | throwErr t =>
                simp only [runBeh, restoreState_trace]
                rw [ih (some t) _ hg (by
                  simpa [pushEvent_idx, mergeParams_idx, stripState_idx]
                    using hf2)]
                simp [pushEvent_trace, mergeParams_trace, stripState_trace,
                  countOut_append, countOut]
              | finish => rw [hb] at hgood; simp [goodB] at hgood
              | nextThenThrow e2 t => rw [hb] at hgood; simp [goodB] at hgood
            · rw [if_neg har]
              simp only [restoreState_trace]
              rw [ih none _ hg (by
                simpa [mergeParams_idx, stripState_idx] using hf2)]
              simp [mergeParams_trace, stripState_trace]
        · rw [if_pos hmatch]
          exact ih none _ hg hf2

theorem countOutR_append {E : Type} (a b : List (RaEvent E)) :
    countOutR (a ++ b) = countOutR a + countOutR b := by
  simp [countOutR, List.countP_append]

/-- Under the continuation contract, `executeRouteHandlers` calls the
boundary exactly once. -/
theorem execRoute_out_count {E : Type} (handlers : List (HBeh E)) :
    ∀ (fuel : Nat) (err : Option E) (st : RState E),
      (∀ b ∈ handlers, goodB b = true) →
      handlers.length - st.routeIdx < fuel →
      countOutR (execRoute fuel handlers err st).trace =
        countOutR st.trace + 1 := by
  intro fuel
  induction fuel with
  | zero => intro err st _ hf; omega
  | succ f ih =>
    intro err st hg hf
    cases err with
    | some e =>
      simp only [execRoute]
      simp [countOutR_append, countOutR]
    | none =>
      cases hget : handlers.get? st.routeIdx with
      | none =>
        simp only [execRoute, hget]
        simp [countOutR_append, countOutR]
      | some beh =>
        have hgood := hg beh (List.get?_mem hget)
        have hidx : st.routeIdx < handlers.length := by
          by_contra hc
          rw [List.get?_eq_none.mpr (by omega)] at hget
          exact Option.noConfusion hget
        have hf2 : handlers.length - (st.routeIdx + 1) < f := by omega
        simp only [execRoute, hget]
        cases hb : beh with
        | callNext e2 =>
          rw [ih e2 _ hg hf2]
          simp [countOutR_append, countOutR]
        | throwErr t =>
          simp [countOutR_append, countOutR]
        | finish => rw [hb] at hgood; simp [goodB] at hgood
        | nextThenThrow e2 t => rw [hb] at hgood; simp [goodB] at hgood

/-- Under the continuation contract, the radix fast path
(`executeMiddleware` then `executeRouteHandlers`) calls the boundary
exactly once. -/
theorem execMw_out_count {E : Type} (mwStack : List (MLayer E))
    (handlers : List (HBeh E)) (m : Method) :
    ∀ (fuel : Nat) (err : Option E) (st : RState E),
      (∀ l ∈ mwStack, goodB l.beh = true) →
      (∀ b ∈ handlers, goodB b = true) →
      (mwStack.length - st.mwIdx) + (handlers.length - st.routeIdx) + 1 <
        fuel →
      countOutR (execMw fuel mwStack handlers m err st).trace =
        countOutR st.trace + 1 := by
  intro fuel
  induction fuel with
  | zero => intro err st _ _ hf; omega
  | succ f ih =>
    intro err st hgm hgh hf
    cases err with
    | some e =>
      simp only [execMw]
      simp [countOutR_append, countOutR]
    | none =>
      cases hget : mwStack.get? st.mwIdx with
      | none =>
        simp only [execMw, hget]
        exact execRoute_out_count handlers f none st hgh (by omega)
      | some layer =>
        have hgood := hgm layer (List.get?_mem hget)
        have hidx : st.mwIdx < mwStack.length := by
          by_contra hc
          rw [List.get?_eq_none.mpr (by omega)] at hget
          exact Option.noConfusion hget
        simp only [execMw, hget]
        by_cases hmatch : layerMatch layer st.path = true
        · rw [if_neg (not_not_intro hmatch)]
          cases hb : layer.beh with
          | callNext e2 =>
            rw [show (RState.trace { execMw f mwStack handlers m e2 _ with
              path := st.path, baseUrl := st.baseUrl }) =
              (execMw f mwStack handlers m e2 _).trace from rfl]
            rw [ih e2 _ hgm hgh (by
              simp only [apply_ite RState.mwIdx, apply_ite RState.routeIdx]
              simp only [ite_self]
              omega)]
            simp only [apply_ite RState.trace, ite_self]
            simp [countOutR_append, countOutR]
          | throwErr t =>
            simp only [apply_ite RState.trace, ite_self]
            simp [countOutR_append, countOutR]
          | finish => rw [hb] at hgood; simp [goodB] at hgood
          | nextThenThrow e2 t => rw [hb] at hgood; simp [goodB] at hgood
        · rw [if_pos hmatch]
          exact ih none _ hgm hgh (by dsimp only; omega)

/-- Claim C3 (amended): provided every handler respects the continuation
contract — it calls its continuation exactly once (with or without an
error) or throws without having called it — a full `Router.handle` dispatch
invokes the boundary callback exactly once, in both the radix fast path and
the linear fallback. (Without that proviso the guarantee fails: see the
counterexample — a handler that responds without calling `next` yields zero
invocations, and one that calls `next` and then throws yields two.) -/
theorem boundary_called_exactly_once {E : Type}
    (tree : Option (RadixTree (HBeh E))) (stack : List (MLayer E))
    (m : Method) (path : String)
    (hstack : ∀ l ∈ stack, goodB l.beh = true)
    (htree : ∀ t rp, tree = some t → treeFind t m path = some rp →
      ∀ b ∈ rp.1.handlers, goodB b = true) :
    (match routerHandle tree stack m path with
     | .radix st => countOutR st.trace = 1
     | .fallback st => countOut st.trace = 1) := by
  have hfb : countOut (handleFallback (E := E) stack m path).trace = 1 := by
    unfold handleFallback
    rw [nextRun_out_count stack m (stack.length + 1) none _ hstack
      (by simp)]
    rfl
  cases tree with
  | none =>
    simp only [routerHandle]
    exact hfb
  | some t =>
    simp only [routerHandle, handleRadix]
    cases hfind : treeFind t m path with
    | none => exact hfb
    | some rp =>
      show countOutR (execMw _ _ _ _ _ _).trace = 1
      rw [execMw_out_count (stack.filter (fun l => l.method = .USE))
        rp.1.handlers m _ none _
        (fun l hl => hstack l (List.mem_of_mem_filter hl))
        (htree t rp rfl hfind) (by omega)]
      rfl

/-- Witness for C3's amended statement, at a stack whose handlers error,
recover, and fall through. -/
theorem boundary_called_exactly_once_witness :
    (match routerHandle (E := Nat) none goodStack .GET "/a" with
     | .radix st => countOutR st.trace = 1
     | .fallback st => countOut st.trace = 1) :=
  boundary_called_exactly_once none goodStack .GET "/a" (by decide)
    (fun _ _ h _ _ _ => nomatch h)



/-- Stripping is a no-op for non-`USE` layers and for `USE` layers mounted
at the root path. -/
theorem stripState_noop {E : Type} (l : MLayer E) (s : DState E)
    (h : l.method = .USE → l.path = "/") : stripState l s = s := by
  unfold stripState
  dsimp only
  by_cases hm : l.method = Method.USE
  · simp [hm, h hm]
  · simp [hm]

/-- The `next` loop only appends to the trace: the initial trace survives as
a prefix, whatever the handlers do. -/
theorem nextRun_take {E : Type} (stack : List (MLayer E)) (m : Method) :
    ∀ (fuel : Nat) (err : Option E) (st : DState E),
      st.trace.length ≤ (nextRun fuel stack m err st).trace.length ∧
      ∀ n, n ≤ st.trace.length →
        ((nextRun fuel stack m err st).trace).take n = st.trace.take n := by
  intro fuel
  induction fuel with
  | zero => intro err st; exact ⟨le_refl _, fun n _ => rfl⟩
  | succ f ih =>
    intro err st
    cases hget : stack.get? st.idx with
    | none =>
      simp only [nextRun, hget, pushEvent_trace]
      refine ⟨by simp, fun n hn => List.take_append_of_le_length hn⟩
    | some layer =>
      have hlen3 : (mergeParams layer st.path
          (stripState layer { st with idx := st.idx + 1 })).trace =
          st.trace := by
        rw [mergeParams_trace, stripState_trace]
      cases err with
      | some e =>
        simp only [nextRun, hget]
        by_cases hmatch : layerMatch layer st.path = true
        · rw [if_neg (not_not_intro hmatch)]
          by_cases hmm : (layer.method ≠ Method.USE ∧ layer.method ≠ m)
          · rw [if_pos hmm]
            exact ih (some e) { st with idx := st.idx + 1 }
          · rw [if_neg hmm]
            by_cases har : layer.arity = 4
            · rw [if_pos har]
              cases hb : layer.beh with
              | callNext e2 =>
                simp only [runBeh, restoreState_trace]
                constructor
                · refine le_trans ?_ (ih e2 _).1
                  simp [pushEvent_trace, hlen3]
                · intro n hn
                  refine ((ih e2 _).2 n ?_).trans ?_
                  · simp [pushEvent_trace, hlen3]; omega
                  · rw [pushEvent_trace, hlen3]
                    exact List.take_append_of_le_length hn
              | throwErr t =>
                simp only [runBeh, restoreState_trace]
                constructor
                · refine le_trans ?_ (ih (some t) _).1
                  simp [pushEvent_trace, hlen3]
                · intro n hn
                  refine ((ih (some t) _).2 n ?_).trans ?_
                  · simp [pushEvent_trace, hlen3]; omega
                  · rw [pushEvent_trace, hlen3]
                    exact List.take_append_of_le_length hn
              | finish =>
                simp only [runBeh, restoreState_trace]
                rw [pushEvent_trace, hlen3]
                refine ⟨by simp, fun n hn => List.take_append_of_le_length hn⟩
              | nextThenThrow e2 t =>
                simp only [runBeh, restoreState_trace]
                constructor
                · refine le_trans (le_trans ?_ (ih e2 _).1) (ih (some t) _).1
                  simp [pushEvent_trace, hlen3]
                · intro n hn
                  refine ((ih (some t) _).2 n ?_).trans ?_
                  · refine le_trans ?_ (ih e2 _).1
                    simp [pushEvent_trace, hlen3]; omega
                  · refine ((ih e2 _).2 n ?_).trans ?_
                    · simp [pushEvent_trace, hlen3]; omega
                    · rw [pushEvent_trace, hlen3]
                      exact List.take_append_of_le_length hn
            · rw [if_neg har]
              simp only [restoreState_trace]
              constructor
              · refine le_trans ?_ (ih (some e) _).1
                rw [hlen3]
              · intro n hn
                refine ((ih (some e) _).2 n ?_).trans ?_
                · rw [hlen3]; exact hn
                · rw [hlen3]
        · rw [if_pos hmatch]
          exact ih (some e) { st with idx := st.idx + 1 }
      | none =>
        simp only [nextRun, hget]
        by_cases hmatch : layerMatch layer st.path = true
        · rw [if_neg (not_not_intro hmatch)]
          by_cases hmm : (layer.method ≠ Method.USE ∧ layer.method ≠ m)
          · rw [if_pos hmm]
            exact ih none { st with idx := st.idx + 1 }
          · rw [if_neg hmm]
            by_cases har : layer.arity < 4
            · rw [if_pos har]
              cases hb : layer.beh with
              | callNext e2 =>
                simp only [runBeh, restoreState_trace]
                constructor
                · refine le_trans ?_ (ih e2 _).1
                  simp [pushEvent_trace, hlen3]
                · intro n hn
                  refine ((ih e2 _).2 n ?_).trans ?_
                  · simp [pushEvent_trace, hlen3]; omega
                  · rw [pushEvent_trace, hlen3]
                    exact List.take_append_of_le_length hn
              | throwErr t =>
                simp only [runBeh, restoreState_trace]
                constructor
                · refine le_trans ?_ (ih (some t) _).1
                  simp [pushEvent_trace, hlen3]
                · intro n hn
                  refine ((ih (some t) _).2 n ?_).trans ?_
                  · simp [pushEvent_trace, hlen3]; omega
                  · rw [pushEvent_trace, hlen3]
                    exact List.take_append_of_le_length hn
              | finish =>
                simp only [runBeh, restoreState_trace]
                rw [pushEvent_trace, hlen3]
                refine ⟨by simp, fun n hn => List.take_append_of_le_length hn⟩
              | nextThenThrow e2 t =>
                simp only [runBeh, restoreState_trace]
                constructor
                · refine le_trans (le_trans ?_ (ih e2 _).1) (ih (some t) _).1
                  simp [pushEvent_trace, hlen3]
                · intro n hn
                  refine ((ih (some t) _).2 n ?_).trans ?_
                  · refine le_trans ?_ (ih e2 _).1
                    simp [pushEvent_trace, hlen3]; omega
                  · refine ((ih e2 _).2 n ?_).trans ?_
                    · simp [pushEvent_trace, hlen3]; omega
                    · rw [pushEvent_trace, hlen3]
                      exact List.take_append_of_le_length hn
            · rw [if_neg har]
              simp only [restoreState_trace]
              constructor
              · refine le_trans ?_ (ih none _).1
                rw [hlen3]
              · intro n hn
                refine ((ih none _).2 n ?_).trans ?_
                · rw [hlen3]; exact hn
                · rw [hlen3]
        · rw [if_pos hmatch]
          exact ih none { st with idx := st.idx + 1 }



theorem mergeParams_path {E : Type} (l : MLayer E) (p : String) (s : DState E) :
    (mergeParams l p s).path = s.path := rfl

theorem mergeParams_baseUrl {E : Type} (l : MLayer E) (p : String)
    (s : DState E) : (mergeParams l p s).baseUrl = s.baseUrl := rfl

/-- A list whose first `|pre| + 1` elements are `pre ++ [ev]` has `ev` at
position `|pre|`. -/
theorem head_drop_of_take {α : Type} (t pre : List α) (ev : α)
    (h : t.take (pre.length + 1) = pre ++ [ev]) :
    (t.drop pre.length).head? = some ev := by
  have hlen : pre.length + 1 ≤ t.length := by
    have h0 := congrArg List.length h
    simp [List.length_take] at h0
    omega
  have h1 : t.get? pre.length = some ev := by
    have h2 : (t.take (pre.length + 1)).get? pre.length = t.get? pre.length :=
      List.get?_take (by omega)
    rw [h, List.get?_append_right (le_refl _)] at h2
    simp at h2
    simpa [List.get?_eq_getElem?] using h2.symm
  have h3 : (t.drop pre.length).head? = t.get? pre.length := by
    cases hdp : t.drop pre.length with
    | nil =>
      have h5 := congrArg List.length hdp
      simp [List.length_drop] at h5
      omega
    | cons a l =>
      have h6 : (t.drop pre.length).get? 0 = some a := by rw [hdp]; rfl
      rw [List.get?_drop] at h6
      simp at h6
      simpa [List.get?_eq_getElem?] using h6.symm
  rw [h3, h1]

/-- Claim C1 (amended, fallback side): in the linear fallback dispatch, once
a handler has passed an error to its continuation, every subsequent matching
normal (non-4-argument) layer is skipped; the first event after that point
is the invocation of the first matching 4-argument layer with exactly that
error, and if no matching 4-argument layer remains, the boundary callback is
invoked once with that error. (Stated for stacks whose `USE` layers are
mounted at `/`, so the working path is stable during the scan; in the radix
fast path the claim fails — see the counterexample.) -/
theorem fallback_error_scan {E : Type} (stack : List (MLayer E)) (m : Method)
    (e : E) (hUse : ∀ l ∈ stack, l.method = .USE → l.path = "/") :
    ∀ (fuel : Nat) (st : DState E), stack.length - st.idx < fuel →
      (∀ k, firstErrAux (stack.drop st.idx) m st.path st.idx = some k →
        ((nextRun fuel stack m (some e) st).trace.drop st.trace.length).head?
          = some (.handlerCall k (some e) st.path st.baseUrl)) ∧
      (firstErrAux (stack.drop st.idx) m st.path st.idx = none →
        (nextRun fuel stack m (some e) st).trace =
          st.trace ++ [.outCall (some e)]) := by
  intro fuel
  induction fuel with
  | zero => intro st hf; omega
  | succ f ih =>
    intro st hf
    cases hget : stack.get? st.idx with
    | none =>
      have hnil : stack.drop st.idx = [] :=
        List.drop_eq_nil_of_le (List.get?_eq_none.mp hget)
      constructor
      · intro k hk
        rw [hnil] at hk
        simp [firstErrAux] at hk
      · intro _
        simp only [nextRun, hget, pushEvent_trace]
    | some layer =>
      have hidx : st.idx < stack.length := by
        by_contra hc
        rw [List.get?_eq_none.mpr (by omega)] at hget
        exact Option.noConfusion hget
      have hf2 : stack.length - (st.idx + 1) < f := by omega
      have hdrop : stack.drop st.idx = layer :: stack.drop (st.idx + 1) := by
        rw [List.drop_eq_getElem_cons hidx]
        have h7 := List.get?_eq_getElem? stack st.idx
        rw [h7, List.getElem?_eq_getElem hidx] at hget
        simp_all
      have hnoop : stripState layer { st with idx := st.idx + 1 } =
          { st with idx := st.idx + 1 } :=
        stripState_noop _ _ (hUse layer (List.get?_mem hget))
      by_cases hmatch : layerMatch layer st.path = true
      · by_cases hmm : (layer.method ≠ Method.USE ∧ layer.method ≠ m)
        · -- verb mismatch: skipped by dispatch and by the scan
          have hstep : firstErrAux (stack.drop st.idx) m st.path st.idx =
              firstErrAux (stack.drop (st.idx + 1)) m st.path (st.idx + 1) := by
            rw [hdrop]
            simp only [firstErrAux]
            rw [if_neg (by simp [hmm.1, hmm.2])]
          have ihx := ih { st with idx := st.idx + 1 } hf2
          simp only [nextRun, hget]
          rw [if_neg (not_not_intro hmatch), if_pos hmm]
          rw [hstep]
          exact ihx
        · have hmok : (layer.method = Method.USE ∨ layer.method = m) := by
            rcases Decidable.em (layer.method = Method.USE) with h | h
            · exact .inl h
            · rcases Decidable.em (layer.method = m) with h2 | h2
              · exact .inr h2
              · exact absurd ⟨h, h2⟩ hmm
          by_cases har : layer.arity = 4
          · -- this layer is the first matching error handler
            have hfa : firstErrAux (stack.drop st.idx) m st.path st.idx =
                some st.idx := by
              rw [hdrop]
              simp only [firstErrAux]
              rw [if_pos (by rcases hmok with h | h <;> simp [hmatch, har, h])]
            constructor
            · intro k hk
              rw [hfa] at hk
              injection hk with hk2
              subst hk2
              simp only [nextRun, hget]
              rw [if_neg (not_not_intro hmatch), if_neg hmm, if_pos har,
                hnoop]
              cases hb : layer.beh with
              | callNext e2 =>
                simp only [runBeh, restoreState_trace]
                apply head_drop_of_take
                refine ((nextRun_take stack m f e2 _).2 (st.trace.length + 1)
                  ?_).trans ?_
                · simp [pushEvent_trace, mergeParams_trace]
                · rw [pushEvent_trace, mergeParams_trace]
                  simp [mergeParams_path, mergeParams_baseUrl]
              | throwErr t =>
                simp only [runBeh, restoreState_trace]
                apply head_drop_of_take
                refine ((nextRun_take stack m f (some t) _).2 (st.trace.length + 1)
                  ?_).trans ?_
                · simp [pushEvent_trace, mergeParams_trace]
                · rw [pushEvent_trace, mergeParams_trace]
                  simp [mergeParams_path, mergeParams_baseUrl]
              | finish =>
                simp only [runBeh, restoreState_trace]
                apply head_drop_of_take
                rw [pushEvent_trace, mergeParams_trace]
                simp [mergeParams_path, mergeParams_baseUrl]
              | nextThenThrow e2 t =>
                simp only [runBeh, restoreState_trace]
                apply head_drop_of_take
                refine ((nextRun_take stack m f (some t) _).2 (st.trace.length + 1)
                  ?_).trans ?_
                · refine le_trans ?_ (nextRun_take stack m f e2 _).1
                  simp [pushEvent_trace, mergeParams_trace]
                · refine ((nextRun_take stack m f e2 _).2 (st.trace.length + 1)
                    ?_).trans ?_
                  · simp [pushEvent_trace, mergeParams_trace]
                  · rw [pushEvent_trace, mergeParams_trace]
                    simp [mergeParams_path, mergeParams_baseUrl]
            · intro hnone
              rw [hfa] at hnone
              exact Option.noConfusion hnone
          · -- matching normal handler: skipped in error mode
            have hstep : firstErrAux (stack.drop st.idx) m st.path st.idx =
                firstErrAux (stack.drop (st.idx + 1)) m st.path (st.idx + 1) := by
              rw [hdrop]
              simp only [firstErrAux]
              rw [if_neg (by simp [har])]
            have ihx := ih (mergeParams layer st.path
              { st with idx := st.idx + 1 }) (by
                simp only [mergeParams_idx]
                exact hf2)
            simp only [mergeParams_idx, mergeParams_path, mergeParams_trace]
              at ihx
            simp only [nextRun, hget]
            rw [if_neg (not_not_intro hmatch), if_neg hmm, if_neg har, hnoop]
            rw [hstep]
            constructor
            · intro k hk
              rw [restoreState_trace]
              have hb := ihx.1 k hk
              simpa [mergeParams_baseUrl] using hb
            · intro hnone
              rw [restoreState_trace]
              exact ihx.2 hnone
      · -- non-matching layer: skipped by dispatch and by the scan
        have hstep : firstErrAux (stack.drop st.idx) m st.path st.idx =
            firstErrAux (stack.drop (st.idx + 1)) m st.path (st.idx + 1) := by
          rw [hdrop]
          simp only [firstErrAux]
          rw [if_neg (by simp [hmatch])]
        have ihx := ih { st with idx := st.idx + 1 } hf2
        simp only [nextRun, hget]
        rw [if_pos hmatch]
        rw [hstep]
        exact ihx

/-- Witness for C1's fallback statement: after middleware 0 passed error `7`
to its continuation, the scan resumes at index 1, where the matching
4-argument layer of `radixErrStack` is invoked with that error. -/
theorem fallback_error_scan_witness :
    ((nextRun 2 radixErrStack .GET (some 7)
      (⟨1, "/a", "", [], []⟩ : DState Nat)).trace.drop 0).head? =
      some (.handlerCall 1 (some 7) "/a" "") :=
  (fallback_error_scan radixErrStack .GET 7 (by decide) 2
    ⟨1, "/a", "", [], []⟩ (by decide)).1 1 (by decide)

/-! ### Round-trip of registration and resolution (C7) -/

/-- Splitting the slash-intercalation of nonempty separator-free chunks
recovers the chunks. -/
theorem splitSepsAux_intercalate (its : List (List Char)) :
    ∀ (x : List Char), '/' ∉ x → (∀ y ∈ its, '/' ∉ y) →
      splitSepsAux (List.intercalate ['/'] (x :: its)) [] = x :: its := by
  induction its with
  | nil =>
    intro x hx _
    rw [show List.intercalate ['/'] [x] = x from by
      simp [List.intercalate]]
    rw [splitSepsAux_no_slash x [] hx]
    simp
  | cons y its2 ih =>
    intro x hx hy
    have hinter : List.intercalate ['/'] (x :: y :: its2) =
        x ++ '/' :: List.intercalate ['/'] (y :: its2) := by
      simp [List.intercalate, List.intersperse]
    rw [hinter]
    rw [splitSepsAux_break x _ [] hx]
    rw [ih y (hy y (List.mem_cons_self y its2))
      (fun z hz => hy z (List.mem_cons_of_mem _ hz))]
    simp

/-- Rebuilding the strings after the filter of `splitSlash`, for nonempty
inputs. -/
theorem filter_map_mk (l : List String) :
    (∀ y ∈ l, y ≠ "") →
      ((l.map String.toList).filter (fun cs => cs ≠ [])).map
        (fun cs => String.mk cs) = l := by
  induction l with
  | nil => intro _; rfl
  | cons a t iht =>
    intro hl
    have ha : a.data ≠ [] := (ne_empty_iff_data a).mp
      (hl a (List.mem_cons_self a t))
    rw [show (a :: t).map String.toList = a.toList :: t.map String.toList
      from rfl]
    rw [show (a.toList :: t.map String.toList).filter (fun cs => cs ≠ []) =
        a.toList :: (t.map String.toList).filter (fun cs => cs ≠ []) from by
      simp [List.filter_cons, ha]]
    rw [List.map_cons]
    rw [iht (fun y hy => hl y (List.mem_cons_of_mem a hy))]
    rfl

/-- `path.split("/").filter(Boolean)` of `"/" ++ s1/s2/...` recovers the
segments when each is nonempty and separator-free. -/
theorem splitSlash_join (items : List String)
    (h : ∀ x ∈ items, x ≠ "" ∧ '/' ∉ x.toList) :
    splitSlash ("/" ++ joinSlash items) = items := by
  cases items with
  | nil => rfl
  | cons x its =>
    have hdata : ("/" ++ joinSlash (x :: its)).toList =
        '/' :: List.intercalate ['/'] ((x :: its).map String.toList) := by
      show ("/" ++ joinSlash (x :: its)).data = _
      rw [String.data_append]
      rfl
    unfold splitSlash
    rw [hdata]
    rw [show splitSepsAux
        ('/' :: List.intercalate ['/'] ((x :: its).map String.toList)) [] =
        [] :: splitSepsAux
          (List.intercalate ['/'] ((x :: its).map String.toList)) []
      from rfl]
    rw [show (x :: its).map String.toList =
      x.toList :: its.map String.toList from rfl]
    rw [splitSepsAux_intercalate (its.map String.toList) x.toList
      (h x (List.mem_cons_self x its)).2
      (fun y hy => by
        obtain ⟨z, hz, rfl⟩ := List.mem_map.mp hy
        exact (h z (List.mem_cons_of_mem x hz)).2)]
    rw [show ([] :: x.toList :: its.map String.toList).filter
        (fun cs => cs ≠ []) =
        (x.toList :: its.map String.toList).filter (fun cs => cs ≠ [])
      from by simp]
    exact filter_map_mk (x :: its) (fun y hy => (h y hy).1)

/-- Character list of a `:`-prefixed name. -/
theorem colon_append_toList (n : String) :
    (":" ++ n).toList = ':' :: n.toList := by
  show (":" ++ n).data = ':' :: n.data
  rw [String.data_append]
  rfl

/-- Character list of a `*`-prefixed name. -/
theorem star_append_toList (n : String) :
    ("*" ++ n).toList = '*' :: n.toList := by
  show ("*" ++ n).data = '*' :: n.data
  rw [String.data_append]
  rfl

/-- A segment whose classification is static classifies to the evident
static `Seg`. -/
theorem classify_static (s : String) (hty : (classifySeg s).ty = .STATIC) :
    classifySeg s = ⟨s, .STATIC, none⟩ := by
  unfold classifySeg at hty ⊢
  by_cases h1 : strStartsWith s ":" = true
  · rw [if_pos h1] at hty ⊢
    cases hp : paramSegName s with
    | some name => rw [hp] at hty; simp [Seg.ty] at hty
    | none => rfl
  · rw [if_neg h1] at hty ⊢
    by_cases h2 : strStartsWith s "*" = true
    · rw [if_pos h2] at hty; simp [Seg.ty] at hty
    · rw [if_neg h2]

/-- A well-formed `:name` segment classifies to a `PARAM` segment named
`name`. -/
theorem classify_param (n : String) (h : paramSegName (":" ++ n) = some n) :
    classifySeg (":" ++ n) = ⟨":" ++ n, .PARAM, some n⟩ := by
  have hss : strStartsWith (":" ++ n) ":" = true := by
    simp [strStartsWith, colon_append_toList]
  unfold classifySeg
  rw [if_pos hss, h]

/-- A `*name` segment with a nonempty name classifies to a `CATCH_ALL`
segment named `name`. -/
theorem classify_catch (n : String) (hne : n ≠ "") :
    classifySeg ("*" ++ n) = ⟨"*" ++ n, .CATCH_ALL, some n⟩ := by
  have hs1 : ¬ strStartsWith ("*" ++ n) ":" = true := by
    simp [strStartsWith, star_append_toList]
  have hs2 : strStartsWith ("*" ++ n) "*" = true := by
    simp [strStartsWith, star_append_toList]
  have h0 : n.toList ≠ [] := (ne_empty_iff_data n).mp hne
  have h1 : 0 < n.toList.length := List.length_pos.mpr h0
  have hlen : 1 < strLen ("*" ++ n) := by
    simp only [strLen, star_append_toList, List.length_cons]
    omega
  unfold classifySeg
  rw [if_neg hs1, if_pos hs2]
  dsimp only
  rw [if_pos hlen]
  have hdrop : strDrop ("*" ++ n) 1 = n := by
    show String.mk (("*" ++ n).toList.drop 1) = n
    rw [star_append_toList]
    rfl
  rw [hdrop]

/-- Classifying the registered texts of well-formed pattern segments yields
the intended parse. -/
theorem map_classify_pats (specs : List PatSeg)
    (hs : ∀ sp ∈ specs, goodSpec sp) :
    (specs.map PatSeg.patOf).map classifySeg = specs.map expSeg := by
  induction specs with
  | nil => rfl
  | cons sp rest ih =>
    rw [List.map_cons, List.map_cons, List.map_cons]
    rw [ih (fun x hx => hs x (List.mem_cons_of_mem sp hx))]
    have hg := hs sp (List.mem_cons_self sp rest)
    cases sp with
    | stat s =>
      rw [show (PatSeg.stat s).patOf = s from rfl]
      rw [classify_static s hg.2.2]
      rfl
    | par n v =>
      rw [show (PatSeg.par n v).patOf = ":" ++ n from rfl]
      rw [classify_param n hg.1]
      rfl

/-- `_parsePath` recovers the intended segment structure of a well-formed
pattern. -/
theorem parsePath_patternOf (specs : List PatSeg)
    (copt : Option (String × List String))
    (hs : ∀ sp ∈ specs, goodSpec sp) (hc : goodCatch copt) :
    parsePath (patternOf specs copt) = segsOf specs copt := by
  unfold parsePath patternOf
  rw [splitSlash_join _ ?hits]
  case hits =>
    intro x hx
    rcases List.mem_append.mp hx with hx1 | hx2
    · obtain ⟨sp, hsp, rfl⟩ := List.mem_map.mp hx1
      have hg := hs sp hsp
      cases sp with
      | stat s => exact ⟨hg.1, hg.2.1⟩
      | par n v =>
        obtain ⟨_, hnne, hnsl, _, _⟩ := hg
        refine ⟨?_, ?_⟩
        · show (":" ++ n) ≠ ""
          rw [ne_empty_iff_data]
          rw [show (":" ++ n).data = ':' :: n.data from colon_append_toList n]
          exact List.cons_ne_nil _ _
        · show '/' ∉ (":" ++ n).toList
          rw [colon_append_toList]
          intro hmem
          rcases List.mem_cons.mp hmem with h | h
          · exact absurd h (by decide)
          · exact hnsl h
    · cases copt with
      | none => simp at hx2
      | some c =>
        obtain ⟨n, vs⟩ := c
        obtain ⟨hnne, hnsl, _, _⟩ := hc
        have hx3 : x = "*" ++ n := by simpa using hx2
        subst hx3
        refine ⟨?_, ?_⟩
        · rw [ne_empty_iff_data]
          rw [show ("*" ++ n).data = '*' :: n.data from star_append_toList n]
          exact List.cons_ne_nil _ _
        · rw [star_append_toList]
          intro hmem
          rcases List.mem_cons.mp hmem with h | h
          · exact absurd h (by decide)
          · exact hnsl h
  rw [List.map_append]
  unfold segsOf
  rw [map_classify_pats specs hs]
  congr 1
  cases copt with
  | none => rfl
  | some c =>
    obtain ⟨n, vs⟩ := c
    show [classifySeg ("*" ++ n)] = [⟨"*" ++ n, .CATCH_ALL, some n⟩]
    rw [classify_catch n hc.1]

/-- Lookup in a one-binding map. -/
theorem mget_single {κ α : Type} [DecidableEq κ] (k : κ) (v : α) :
    mget [(k, v)] k = some v := by
  simp [mget]

/-- Setting an absent key appends the binding. -/
theorem mset_append_of_none {κ α : Type} [DecidableEq κ]
    (l : List (κ × α)) (k : κ) (v : α) (h : mget l k = none) :
    mset l k v = l ++ [(k, v)] := by
  have hfind : l.find? (fun p => p.1 = k) = none := by
    cases hf : l.find? (fun p => p.1 = k) with
    | none => rfl
    | some p => rw [mget, hf] at h; simp at h
  unfold mset
  rw [if_neg]
  intro hany
  obtain ⟨p, hp, hpk⟩ := List.any_eq_true.mp hany
  have := List.find?_eq_none.mp hfind p hp
  exact this hpk

/-- A key absent from a map stays absent after appending a different key. -/
theorem mget_append_ne {κ α : Type} [DecidableEq κ]
    (l : List (κ × α)) (k2 k : κ) (v : α) (h : mget l k = none)
    (hne : k2 ≠ k) : mget (l ++ [(k2, v)]) k = none := by
  have hfind : l.find? (fun p => p.1 = k) = none := by
    cases hf : l.find? (fun p => p.1 = k) with
    | none => rfl
    | some p => rw [mget, hf] at h; simp at h
  rw [mget, List.find?_append, hfind]
  simp [hne]

/-- Element read at the junction of an append. -/
theorem getD_append_cons (pre : List String) (v : String)
    (rest : List String) (d : String) :
    (pre ++ v :: rest).getD pre.length d = v := by
  induction pre with
  | nil => rfl
  | cons a l ih => simpa using ih

/-- `_insert` never changes the text of the node it starts from. -/
theorem addSegs_path {H : Type} (node : RadixNode H) (segs : List Seg)
    (route : RouteDefinition H) :
    (addSegs node segs route).path = node.path := by
  obtain ⟨p, t, pn, ch, rts, pr, wc, pc⟩ := node
  cases segs with
  | nil => rfl
  | cons seg rest =>
    obtain ⟨sp, sty, spn⟩ := seg
    cases sty with
    | STATIC =>
      show (addSegs _ (⟨sp, .STATIC, spn⟩ :: rest) route).path = p
      unfold addSegs
      dsimp only [RadixNode.path, RadixNode.ty, RadixNode.paramName,
        RadixNode.children, RadixNode.routes, RadixNode.priority,
        RadixNode.wildcardChild, RadixNode.paramChild]
      cases hmg : mget ch (strTake sp 1) with
      | none => rfl
      | some child =>
        obtain ⟨cp, ct, cpn, cch, crts, cpr, cwc, cpc⟩ := child
        dsimp only [RadixNode.path, RadixNode.ty, RadixNode.paramName,
          RadixNode.children, RadixNode.routes, RadixNode.priority,
          RadixNode.wildcardChild, RadixNode.paramChild]
        by_cases hcl : commonLen cp sp < strLen sp
        · rw [if_pos hcl]
        · rw [if_neg hcl]
    | PARAM =>
      show (addSegs _ (⟨sp, .PARAM, spn⟩ :: rest) route).path = p
      unfold addSegs
      dsimp only [RadixNode.path, RadixNode.ty, RadixNode.paramName,
        RadixNode.children, RadixNode.routes, RadixNode.priority,
        RadixNode.wildcardChild, RadixNode.paramChild]
    | CATCH_ALL =>
      show (addSegs _ (⟨sp, .CATCH_ALL, spn⟩ :: rest) route).path = p
      unfold addSegs
      dsimp only [RadixNode.path, RadixNode.ty, RadixNode.paramName,
        RadixNode.children, RadixNode.routes, RadixNode.priority,
        RadixNode.wildcardChild, RadixNode.paramChild]

/-- `_insert` never changes the parameter name of the node it starts
from. -/
theorem addSegs_paramName {H : Type} (node : RadixNode H) (segs : List Seg)
    (route : RouteDefinition H) :
    (addSegs node segs route).paramName = node.paramName := by
  obtain ⟨p, t, pn, ch, rts, pr, wc, pc⟩ := node
  cases segs with
  | nil => rfl
  | cons seg rest =>
    obtain ⟨sp, sty, spn⟩ := seg
    cases sty with
    | STATIC =>
      show (addSegs _ (⟨sp, .STATIC, spn⟩ :: rest) route).paramName = pn
      unfold addSegs
      dsimp only [RadixNode.path, RadixNode.ty, RadixNode.paramName,
        RadixNode.children, RadixNode.routes, RadixNode.priority,
        RadixNode.wildcardChild, RadixNode.paramChild]
      cases hmg : mget ch (strTake sp 1) with
      | none => rfl
      | some child =>
        obtain ⟨cp, ct, cpn, cch, crts, cpr, cwc, cpc⟩ := child
        dsimp only [RadixNode.path, RadixNode.ty, RadixNode.paramName,
          RadixNode.children, RadixNode.routes, RadixNode.priority,
          RadixNode.wildcardChild, RadixNode.paramChild]
        by_cases hcl : commonLen cp sp < strLen sp
        · rw [if_pos hcl]
        · rw [if_neg hcl]
    | PARAM =>
      show (addSegs _ (⟨sp, .PARAM, spn⟩ :: rest) route).paramName = pn
      unfold addSegs
      dsimp only [RadixNode.path, RadixNode.ty, RadixNode.paramName,
        RadixNode.children, RadixNode.routes, RadixNode.priority,
        RadixNode.wildcardChild, RadixNode.paramChild]
    | CATCH_ALL =>
      show (addSegs _ (⟨sp, .CATCH_ALL, spn⟩ :: rest) route).paramName = pn
      unfold addSegs
      dsimp only [RadixNode.path, RadixNode.ty, RadixNode.paramName,
        RadixNode.children, RadixNode.routes, RadixNode.priority,
        RadixNode.wildcardChild, RadixNode.paramChild]

/-- The param branch on a present param child, unfolded. -/
theorem paramBranch_some {H : Type} (fuel : Nat) (c : RadixNode H)
    (m : Method) (segs : List String) (i : Nat) (params : Params) :
    paramBranch fuel (some c) m segs i params =
      searchF fuel c m segs (i + 1)
        (mset params ((c.paramName).getD "") (segs.getD i "")) := rfl

/-- The wildcard branch on a wildcard child that has a route for the
verb. -/
theorem wildBranch_some {H : Type} (c : RadixNode H) (m : Method)
    (segs : List String) (i : Nat) (params : Params)
    (hr : (mget c.routes m).isSome = true) :
    wildBranch (some c) m segs i params =
      some (c, mset params ((c.paramName).getD "")
        (joinSlash (segs.drop i))) := by
  unfold wildBranch
  dsimp only
  rw [if_pos (by simp [hr])]

/-- Searching a freshly-built chain with the conforming values, shifted past
an arbitrary prefix of already-consumed segments, reaches a node holding the
registered route and accumulates exactly the intended bindings. -/
theorem roundtrip_search {H : Type} (specs : List PatSeg) :
    ∀ (copt : Option (String × List String)) (route : RouteDefinition H)
      (p0 : String) (t0 : NodeType) (pn0 : Option String)
      (params : Params) (pre : List String) (fuel : Nat),
      (∀ sp ∈ specs, goodSpec sp) → goodCatch copt →
      route.constraints = [] →
      (allNamesOf specs copt).Nodup →
      (∀ nm ∈ allNamesOf specs copt, mget params nm = none) →
      (valsOf specs copt).length < fuel →
      ∃ nd : RadixNode H,
        searchF fuel
            (addSegs (.mk p0 t0 pn0 [] [] 0 none none) (segsOf specs copt)
              route)
            route.method (pre ++ valsOf specs copt) pre.length params =
          some (nd, params ++ allBindsOf specs copt) ∧
        mget nd.routes route.method = some route := by
  induction specs with
  | nil =>
    intro copt route p0 t0 pn0 params pre fuel hs hc hcon hnd hpar hfuel
    obtain ⟨f, rfl⟩ : ∃ f, fuel = f + 1 := ⟨fuel - 1, by omega⟩
    cases copt with
    | none =>
      refine ⟨.mk p0 t0 pn0 [] [(route.method, route)] 1 none none, ?_, ?_⟩
      · rw [show addSegs (RadixNode.mk p0 t0 pn0 [] [] 0 none none)
            (segsOf [] none) route =
            RadixNode.mk p0 t0 pn0 [] [(route.method, route)] 1 none none
          from rfl]
        rw [searchF_base f _ route.method (pre ++ valsOf [] none) pre.length
          params (by simp [valsOf])]
        rw [show (RadixNode.mk p0 t0 pn0 [] [(route.method, route)] 1 none
            none : RadixNode H).routes = [(route.method, route)] from rfl]
        rw [mget_single route.method route]
        simp only [Option.orElse]
        rw [hcon]
        simp [constraintsFail, allBindsOf, bindsOf]
      · exact mget_single route.method route
    | some c =>
      obtain ⟨n, vs⟩ := c
      obtain ⟨hn1, hn2, hvs1, hvs2⟩ := hc
      refine ⟨recordRoute (RadixNode.mk ("*" ++ n) .CATCH_ALL (some n) [] []
        0 none none) route, ?_, ?_⟩
      · rw [show addSegs (RadixNode.mk p0 t0 pn0 [] [] 0 none none)
            (segsOf [] (some (n, vs))) route =
            RadixNode.mk p0 t0 pn0 [] [] 0
              (some (recordRoute (RadixNode.mk ("*" ++ n) .CATCH_ALL (some n)
                [] [] 0 none none) route)) none
          from rfl]
        rw [show valsOf [] (some (n, vs)) = vs from rfl]
        have hlvs : 0 < vs.length := List.length_pos.mpr hvs1
        rw [searchF_pc_wc f p0 t0 pn0 [] 0
          (some (recordRoute (RadixNode.mk ("*" ++ n) .CATCH_ALL (some n)
            [] [] 0 none none) route)) none route.method (pre ++ vs)
          pre.length params (by simp only [List.length_append]; omega)]
        rw [show paramBranch f (none : Option (RadixNode H)) route.method
          (pre ++ vs) pre.length params = none from rfl]
        simp only [Option.orElse]
        rw [wildBranch_some _ route.method (pre ++ vs) pre.length params
          (by rw [show (recordRoute (RadixNode.mk ("*" ++ n) .CATCH_ALL
              (some n) [] [] 0 none none) route).routes =
              [(route.method, route)] from rfl, mget_single]; rfl)]
        rw [show ((recordRoute (RadixNode.mk ("*" ++ n) .CATCH_ALL (some n)
          [] [] 0 none none) route).paramName).getD "" = n from rfl]
        rw [List.drop_left]
        have hpn : mget params n = none :=
          hpar n (by simp [allNamesOf, parNamesOf])
        rw [mset_append_of_none params n (joinSlash vs) hpn]
        simp [allBindsOf, bindsOf]
      · exact mget_single route.method route
  | cons sp rest ih =>
    intro copt route p0 t0 pn0 params pre fuel hs hc hcon hnd hpar hfuel
    obtain ⟨f, rfl⟩ : ∃ f, fuel = f + 1 := ⟨fuel - 1, by omega⟩
    have hsp := hs sp (List.mem_cons_self sp rest)
    have hrest : ∀ x ∈ rest, goodSpec x :=
      fun x hx => hs x (List.mem_cons_of_mem sp hx)
    cases sp with
    | stat s =>
      rw [show segsOf (.stat s :: rest) copt =
        ⟨s, .STATIC, none⟩ :: segsOf rest copt from rfl]
      rw [show valsOf (.stat s :: rest) copt = s :: valsOf rest copt
        from rfl]
      rw [show addSegs (RadixNode.mk p0 t0 pn0 [] [] 0 none none)
          (⟨s, NodeType.STATIC, none⟩ :: segsOf rest copt) route =
          RadixNode.mk p0 t0 pn0
            [(strTake s 1, addSegs (RadixNode.mk s NodeType.STATIC none [] []
              0 none none) (segsOf rest copt) route)] [] 0 none none
        from rfl]
      have hcpath : (addSegs (RadixNode.mk s NodeType.STATIC none [] [] 0
          none none) (segsOf rest copt) route).path =
          (pre ++ s :: valsOf rest copt).getD pre.length "" := by
        rw [addSegs_path, getD_append_cons]
        rfl
      rw [searchF_one_child_hit f p0 t0 pn0 (strTake s 1)
        (addSegs (RadixNode.mk s NodeType.STATIC none [] [] 0 none none)
          (segsOf rest copt) route) [] 0 route.method
        (pre ++ s :: valsOf rest copt) pre.length params
        (by simp only [List.length_append, List.length_cons]; omega) hcpath]
      rw [show pre ++ s :: valsOf rest copt =
        (pre ++ [s]) ++ valsOf rest copt by simp]
      rw [show pre.length + 1 = (pre ++ [s]).length by simp]
      have hflen : (valsOf (PatSeg.stat s :: rest) copt).length =
          (valsOf rest copt).length + 1 := by
        rw [show valsOf (PatSeg.stat s :: rest) copt =
          s :: valsOf rest copt from rfl]
        rfl
      obtain ⟨nd, h1, h2⟩ := ih copt route s .STATIC none params (pre ++ [s])
        f hrest hc hcon hnd hpar (by omega)
      refine ⟨nd, ?_, h2⟩
      rw [h1]
      simp [allBindsOf, bindsOf]
    | par n v =>
      obtain ⟨hpn, hnne, hnsl, hvne, hvsl⟩ := hsp
      have hcons : allNamesOf (PatSeg.par n v :: rest) copt =
          n :: allNamesOf rest copt := by
        simp [allNamesOf, parNamesOf, List.filterMap_cons]
      rw [hcons] at hnd
      have hnotin : n ∉ allNamesOf rest copt := (List.nodup_cons.mp hnd).1
      have hnd2 : (allNamesOf rest copt).Nodup := (List.nodup_cons.mp hnd).2
      have hvparams : mget params n = none :=
        hpar n (by rw [hcons]; exact List.mem_cons_self n _)
      have hpar2 : ∀ nm ∈ allNamesOf rest copt,
          mget (params ++ [(n, v)]) nm = none := by
        intro nm hnm
        refine mget_append_ne params n nm v
          (hpar nm (by rw [hcons]; exact List.mem_cons_of_mem n hnm))
          (fun he => ?_)
        subst he
        exact hnotin hnm
      rw [show segsOf (.par n v :: rest) copt =
        ⟨":" ++ n, .PARAM, some n⟩ :: segsOf rest copt from rfl]
      rw [show valsOf (.par n v :: rest) copt = v :: valsOf rest copt
        from rfl]
      rw [show addSegs (RadixNode.mk p0 t0 pn0 [] [] 0 none none)
          (⟨":" ++ n, NodeType.PARAM, some n⟩ :: segsOf rest copt) route =
          RadixNode.mk p0 t0 pn0 [] [] 0 none
            (some (addSegs (RadixNode.mk (":" ++ n) NodeType.PARAM (some n)
              [] [] 0 none none) (segsOf rest copt) route))
        from rfl]
      rw [searchF_pc_wc f p0 t0 pn0 [] 0 none
        (some (addSegs (RadixNode.mk (":" ++ n) NodeType.PARAM (some n)
          [] [] 0 none none) (segsOf rest copt) route)) route.method
        (pre ++ v :: valsOf rest copt) pre.length params
        (by simp only [List.length_append, List.length_cons]; omega)]
      rw [paramBranch_some]
      rw [show ((addSegs (RadixNode.mk (":" ++ n) NodeType.PARAM (some n)
        [] [] 0 none none) (segsOf rest copt) route).paramName).getD "" = n
        from by rw [addSegs_paramName]; rfl]
      rw [getD_append_cons]
      rw [mset_append_of_none params n v hvparams]
      rw [show pre ++ v :: valsOf rest copt =
        (pre ++ [v]) ++ valsOf rest copt by simp]
      rw [show pre.length + 1 = (pre ++ [v]).length by simp]
      have hflen : (valsOf (PatSeg.par n v :: rest) copt).length =
          (valsOf rest copt).length + 1 := by
        rw [show valsOf (PatSeg.par n v :: rest) copt =
          v :: valsOf rest copt from rfl]
        rfl
      obtain ⟨nd, h1, h2⟩ := ih copt route (":" ++ n) .PARAM (some n)
        (params ++ [(n, v)]) (pre ++ [v]) f hrest hc hcon hnd2 hpar2
        (by omega)
      refine ⟨nd, ?_, h2⟩
      rw [h1]
      simp [Option.orElse, allBindsOf, bindsOf]

/-- Claim C7 (amended): the registration/resolution round-trip for
`RadixTree`. -/
theorem roundtrip_required_segments {H : Type} (specs : List PatSeg)
    (copt : Option (String × List String)) (m : Method) (handlers : List H)
    (hs : ∀ sp ∈ specs, goodSpec sp) (hc : goodCatch copt)
    (hnd : (allNamesOf specs copt).Nodup) :
    found (treeFind (treeAdd emptyTree m (patternOf specs copt) handlers [])
        m (pathOf specs copt)) =
      some (patternOf specs copt, handlers, allBindsOf specs copt) := by
  have hsegs : splitSlash (pathOf specs copt) = valsOf specs copt := by
    rw [show pathOf specs copt = "/" ++ joinSlash (valsOf specs copt)
      from rfl]
    refine splitSlash_join _ ?_
    intro x hx
    rcases List.mem_append.mp hx with hx1 | hx2
    · obtain ⟨spx, hspx, rfl⟩ := List.mem_map.mp hx1
      have hg := hs spx hspx
      cases spx with
      | stat s2 => exact ⟨hg.1, hg.2.1⟩
      | par n2 v2 => exact ⟨hg.2.2.2.1, hg.2.2.2.2⟩
    · cases copt with
      | none => simp at hx2
      | some c =>
        obtain ⟨n, vs⟩ := c
        exact hc.2.2.2 x hx2
  have hpp : parsePath (patternOf specs copt) = segsOf specs copt :=
    parsePath_patternOf specs copt hs hc
  obtain ⟨nd, h1, h2⟩ := roundtrip_search specs copt
    ⟨m, patternOf specs copt, handlers, [],
      pathParamNames (patternOf specs copt)⟩
    "" .STATIC none [] [] ((valsOf specs copt).length + 1)
    hs hc rfl hnd (fun nm _ => rfl) (by omega)
  dsimp only [List.nil_append, List.length_nil] at h1 h2
  unfold treeFind
  rw [hsegs]
  rw [show (treeAdd emptyTree m (patternOf specs copt) handlers []).root =
      addSegs (RadixNode.mk "" NodeType.STATIC none [] [] 0 none none)
        (parsePath (patternOf specs copt))
        ⟨m, patternOf specs copt, handlers, [],
          pathParamNames (patternOf specs copt)⟩
    from rfl]
  rw [hpp]
  dsimp only
  rw [h1]
  dsimp only
  rw [h2]
  simp [Option.orElse, found]

/-- Witness for C7 at the pattern `/users/:id` with value `42`: the
conforming path `/users/42` resolves to the registered route with the
binding `id = 42`. -/
theorem roundtrip_required_segments_witness :
    found (treeFind (treeAdd emptyTree .GET
          (patternOf [.stat "users", .par "id" "42"] none) [5] []) .GET
        (pathOf [.stat "users", .par "id" "42"] none)) =
      some (patternOf [.stat "users", .par "id" "42"] none, [5],
        allBindsOf [.stat "users", .par "id" "42"] none) ∧
    patternOf [.stat "users", .par "id" "42"] none = "/users/:id" ∧
    pathOf [.stat "users", .par "id" "42"] none = "/users/42" ∧
    allBindsOf [.stat "users", .par "id" "42"] none = [("id", "42")] :=
  ⟨roundtrip_required_segments [.stat "users", .par "id" "42"] none .GET [5]
      (by decide) (by decide) (by decide),
    by decide, by decide, by decide⟩

end Arcana
